import Mathlib

/-!
# distri install: a shallow embedding of `cmd/distri/install.go`

The file system under the installation root is an explicit store (a finite map
from paths to nodes).  Every function of `install.go` that touches the store is
a state transformer over `World`; the store after each completed system call is
appended to a history, so that every state an interrupted run can leave behind
is an element of that history.

Modelling conventions.
* `filepath.Join(a, b, c)` is the component list `[a, b, c]`; package names and
  directory entry names are single path components.
* Symbolic links are leaf nodes: the model does not resolve them.
* A system call fails when the store says so (missing parent, existing target,
  ...) or when the environment injects a fault (`World.faults`, one entry per
  system call, `none` meaning that the environment does not interfere).
* Repositories live outside the installation root and are immutable during a
  run: `Ext.httpDo` and `Ext.osOpen` answer the same request the same way.
* Goroutines started through `errgroup.Group` are run one after the other in an
  order chosen by the scheduler (`Sched.goOrder`); ranging over a Go map visits
  its entries in an order chosen by the runtime (`Sched.rangeOrder`).
-/

namespace Distri

/-! ## Errors -/

/-- Error values that `install.go` creates or receives. -/
inductive Err where
  /-- The value `&errNotFound{}` returned by `repoReader` on HTTP 404. -/
  | errNotFound
  /-- The value `fmt.Errorf("HTTP status %v", resp.Status)`. -/
  | httpStatus (status : String)
  /-- An operating system error for which `os.IsNotExist` holds. -/
  | enoent
  /-- An operating system error for which `os.IsExist` holds. -/
  | eexist
  /-- Any other operating system, transport or decoding error. -/
  | os (msg : String)
  /-- The value `fmt.Errorf("copying /etc: %v", err)`. -/
  | copyingEtc (cause : Err)
  /-- The value `fmt.Errorf("package %s not found on any configured repo", pkg)`. -/
  | notOnAnyRepo (pkg : String)
  /-- The value `fmt.Errorf("installing %s: %v", pkg, err)`. -/
  | installing (pkg : String) (cause : Err)
  deriving DecidableEq, Repr

/-- Go's `os.IsNotExist`. -/
def osIsNotExist : Err → Bool
  | .enoent => true
  | _ => false

/-- Go's `os.IsExist`. -/
def osIsExist : Err → Bool
  | .eexist => true
  | _ => false

/-- The function `isNotExist` of `install.go`. -/
def isNotExist (err : Err) : Bool :=
  match err with
  | .errNotFound => true
  | _ => osIsNotExist err

/-! ## Data model -/

/-- A `distri.Repo`: only its `Path` is used by `install.go`. -/
structure Repo where
  Path : String
  deriving DecidableEq, Repr

/-- The fields of `pb.Meta` that `install.go` reads. -/
structure Meta where
  Version : String
  RuntimeDep : List String
  deriving DecidableEq, Repr

/-- An HTTP response as far as `repoReader` looks at it. -/
structure HttpResponse where
  StatusCode : Nat
  Status : String
  Body : String
  deriving DecidableEq, Repr

mutual
/-- Modelled from the spec: the SquashFS reader (package `internal/squashfs`) is
consumed through a directory listing, a file open and a symlink read; an inode
is what these three report for it. -/
inductive SqInode where
  /-- A directory whose `Readdir` succeeds. -/
  | dir (entries : SqEntries)
  /-- A directory whose `Readdir` fails. -/
  | unreadableDir (e : Err)
  /-- A symbolic link with the result of `ReadLink`. -/
  | symlink (target : Except Err String)
  /-- A regular file with the result of `FileReader` (its bytes). -/
  | regular (data : Except Err String)
  /-- Any other file type (device node, ...). -/
  | other
/-- Modelled from the spec: the entries of a SquashFS directory, in listing order. -/
inductive SqEntries where
  | nil
  | cons (name : String) (inode : SqInode) (rest : SqEntries)
end

/-- The collaborators of `install.go` that are not part of the file. -/
structure Ext where
  /-- The second result of `hasArchSuffix(pkg)`. -/
  hasArchSuffix : String → Bool
  /-- The result of `likelyFullySpecified(pkg)`. -/
  likelyFullySpecified : String → Bool
  /-- The result of `proto.UnmarshalText` on a metadata document. -/
  UnmarshalText : String → Except Err Meta
  /-- The result of `squashfs.NewReader` on the bytes of an image: its root inode. -/
  NewReader : String → Except Err SqInode
  /-- The result of `os.Getpid()`. -/
  Getpid : Nat
  /-- The result of `http.NewRequest` followed by `http.DefaultClient.Do` for a
  GET of the given URL: a transport error message or a response. -/
  httpDo : String → Except String HttpResponse
  /-- The result of `os.Open` on a file of a directory-backed repository,
  together with the bytes later read from it. -/
  osOpen : String → Except Err String

/-! ## The store -/

/-- A path below (and including) the installation root, as a list of components. -/
abbrev Path := List String

/-- A node of the store. -/
inductive Node where
  | dir
  | file (data : String)
  | symlink (target : String)
  deriving DecidableEq, Repr

/-- The store: a finite map from paths to nodes, the first entry for a path wins. -/
structure FS where
  entries : List (Path × Node)
  deriving DecidableEq, Repr

namespace FS

/-- The node at a path, if any. -/
def lookup (fs : FS) (p : Path) : Option Node :=
  (fs.entries.find? (fun e => decide (e.1 = p))).map (fun e => e.2)

/-- Put a node at a path, replacing what was there. -/
def set (fs : FS) (p : Path) (n : Node) : FS :=
  ⟨(p, n) :: fs.entries.filter (fun e => decide (e.1 ≠ p))⟩

/-- Remove the node at a path. -/
def erase (fs : FS) (p : Path) : FS :=
  ⟨fs.entries.filter (fun e => decide (e.1 ≠ p))⟩

/-- Whether some entry lies directly below the path. -/
def hasChild (fs : FS) (p : Path) : Bool :=
  fs.entries.any (fun e => decide (e.1 ≠ [] ∧ e.1.dropLast = p))

/-- Whether the parent of the path is a directory (the parent of a one-component
path lies outside the store and is taken to exist). -/
def parentIsDir (fs : FS) (p : Path) : Bool :=
  decide (p.dropLast = []) || decide (fs.lookup p.dropLast = some Node.dir)

end FS

/-! ## System calls on the store -/

/-- The call `os.Stat(p)`: whether it returns a nil error. -/
def osStat (p : Path) (fs : FS) : Bool :=
  (fs.lookup p).isSome

/-- The call `os.Mkdir(p, 0755)`. -/
def osMkdir (p : Path) (fs : FS) : Except Err (Unit × FS) :=
  if (fs.lookup p).isSome then .error .eexist
  else if fs.parentIsDir p then .ok ((), fs.set p .dir)
  else .error .enoent

/-- The call `os.MkdirAll`, on the reversed path: a directory is fine, any
other node is an error, a missing path is created after its parent. -/
def osMkdirAllRev : List String → FS → Except Err FS
  | [], fs => .ok fs
  | c :: parentRev, fs =>
    match fs.lookup (c :: parentRev).reverse with
    | some .dir => .ok fs
    | some _ => .error (.os "ENOTDIR")
    | none =>
      match osMkdirAllRev parentRev fs with
      | .error e => .error e
      | .ok fs1 =>
        match osMkdir (c :: parentRev).reverse fs1 with
        | .error e => .error e
        | .ok (_, fs2) => .ok fs2

/-- The call `os.MkdirAll(p, 0755)`. -/
def osMkdirAll (p : Path) (fs : FS) : Except Err (Unit × FS) :=
  match osMkdirAllRev p.reverse fs with
  | .error e => .error e
  | .ok fs1 => .ok ((), fs1)

/-- The call `os.OpenFile(p, O_RDWR|O_CREATE|O_TRUNC, perm)`, which is also
`os.Create(p)`: the file exists and is empty afterwards. -/
def osCreate (p : Path) (fs : FS) : Except Err (Unit × FS) :=
  match fs.lookup p with
  | some .dir => .error (.os "EISDIR")
  | some (.symlink _) => .error (.os "ELOOP")
  | _ => if fs.parentIsDir p then .ok ((), fs.set p (.file "")) else .error .enoent

/-- The call `f.Close()`. -/
def osClose (fs : FS) : Except Err (Unit × FS) :=
  .ok ((), fs)

/-- The call `os.Rename(src, dst)` for a source that is not a directory. -/
def osRename (src dst : Path) (fs : FS) : Except Err (Unit × FS) :=
  match fs.lookup src with
  | none => .error .enoent
  | some .dir => .error (.os "rename of a directory")
  | some n =>
    if fs.lookup dst = some .dir then .error (.os "EISDIR")
    else if fs.parentIsDir dst then .ok ((), (fs.erase src).set dst n)
    else .error .enoent

/-- The call `os.Remove(p)`. -/
def osRemove (p : Path) (fs : FS) : Except Err (Unit × FS) :=
  match fs.lookup p with
  | none => .error .enoent
  | some .dir => if fs.hasChild p then .error (.os "ENOTEMPTY") else .ok ((), fs.erase p)
  | some _ => .ok ((), fs.erase p)

/-- The call `os.Symlink(target, p)`. -/
def osSymlink (target : String) (p : Path) (fs : FS) : Except Err (Unit × FS) :=
  if (fs.lookup p).isSome then .error .eexist
  else if fs.parentIsDir p then .ok ((), fs.set p (.symlink target))
  else .error .enoent

/-- The call `mmap.Open(p)`: the bytes of the file. -/
def mmapOpen (p : Path) (fs : FS) : Except Err (String × FS) :=
  match fs.lookup p with
  | some (.file data) => .ok (data, fs)
  | none => .error .enoent
  | some _ => .error (.os "EINVAL")

/-! ## The world and the monad of `install.go` -/

/-- A fault injected by the environment into one system call: the error it
returns and, for a copy, how many bytes were written before it struck. -/
structure Fault where
  err : Err
  written : Nat
  deriving DecidableEq, Repr

/-- One invocation of `install1`. -/
structure Call where
  root : String
  repo : Repo
  pkg : String
  first : Bool
  deriving DecidableEq, Repr

/-- Everything `install.go` reads and writes. -/
structure World where
  /-- The store under the installation root. -/
  fs : FS
  /-- The outcome the environment imposes on the coming system calls. -/
  faults : List (Option Fault)
  /-- The global `totalBytes`, an `int64`. -/
  totalBytes : Int
  /-- The calls of `repoReader` so far (repository, artifact path). -/
  reads : List (Repo × String)
  /-- The invocations of `install1` so far. -/
  calls : List Call
  /-- The store after each system call completed so far, latest first. -/
  trace : List FS
  deriving DecidableEq, Repr

/-- A computation of `install.go`: a result or an error, and the world after it. -/
def M (α : Type) : Type := World → Except Err α × World

/-- Return a value. -/
def M.pure {α : Type} (a : α) : M α := fun w => (.ok a, w)

/-- Sequence two computations; an error ends the sequence. -/
def M.bind {α β : Type} (m : M α) (f : α → M β) : M β := fun w =>
  match m w with
  | (.ok a, w1) => f a w1
  | (.error e, w1) => (.error e, w1)

instance : Monad M where
  pure := M.pure
  bind := M.bind

/-- Return an error. -/
def fail {α : Type} (e : Err) : M α := fun w => (.error e, w)

/-- Run a computation and hand its error to the caller as a value
(`if err := ...; err != nil`). -/
def attempt {α : Type} (m : M α) : M (Except Err α) := fun w =>
  match m w with
  | (r, w1) => (.ok r, w1)

/-- The fault the environment imposes on the next system call. -/
def nextFault (w : World) : Option Fault := w.faults.head?.join

/-- The world once the next system call has been issued. -/
def tick (w : World) : World := { w with faults := w.faults.tail }

/-- Issue a system call on the store. -/
def sys {α : Type} (op : FS → Except Err (α × FS)) : M α := fun w =>
  match nextFault w with
  | some f => (.error f.err, tick w)
  | none =>
    match op w.fs with
    | .error e => (.error e, tick w)
    | .ok (a, fs1) => (.ok a, { tick w with fs := fs1, trace := fs1 :: w.trace })

/-- The first `n` bytes of a string. -/
def takeBytes (n : Nat) (s : String) : String := ⟨s.data.take n⟩

/-- The call `io.Copy(f, in)` where `f` was opened at `p` and `in` delivers
`data`: returns the number of bytes written; a fault leaves a truncated file. -/
def ioCopy (p : Path) (data : String) : M Nat := fun w =>
  match nextFault w with
  | some f =>
    let fs1 := w.fs.set p (.file (takeBytes f.written data))
    (.error f.err, { tick w with fs := fs1, trace := fs1 :: w.trace })
  | none =>
    let fs1 := w.fs.set p (.file data)
    (.ok data.utf8ByteSize, { tick w with fs := fs1, trace := fs1 :: w.trace })

/-- The call `ioutil.ReadAll(rd)` on a stream delivering `data`. -/
def readAll (data : String) : M String := fun w =>
  match nextFault w with
  | some f => (.error f.err, tick w)
  | none => (.ok data, tick w)

/-- Addition of `int64` values. -/
def addInt64 (a b : Int) : Int := (a + b + 2 ^ 63) % 2 ^ 64 - 2 ^ 63

/-- The call `atomic.AddInt64(&totalBytes, n)`. -/
def addTotalBytes (n : Nat) : M Unit := fun w =>
  (.ok (), { w with totalBytes := addInt64 w.totalBytes n })

/-- Run a loop body for each element of a list, in order. -/
def forEach {α : Type} : List α → (α → M Unit) → M Unit
  | [], _ => M.pure ()
  | a :: as, body => M.bind (body a) (fun _ => forEach as body)

/-! ## `repoReader` -/

/-- Go's `strings.HasPrefix(s, p)`. -/
def stringsHasPrefix (s p : String) : Bool := p.data.isPrefixOf s.data

/-- The function `repoReader` of `install.go`: the stream of the artifact `fn`
of the repository, represented by the bytes it delivers. -/
def repoReader (x : Ext) (repo : Repo) (fn : String) : M String := fun w =>
  let w1 := { w with reads := w.reads ++ [(repo, fn)] }
  if stringsHasPrefix repo.Path "http://" || stringsHasPrefix repo.Path "https://" then
    match x.httpDo (repo.Path ++ "/" ++ fn) with
    | .error msg => (.error (.os msg), w1)
    | .ok resp =>
      if resp.StatusCode ≠ 200 then
        if resp.StatusCode = 404 then (.error .errNotFound, w1)
        else (.error (.httpStatus resp.Status), w1)
      else (.ok resp.Body, w1)
  else
    match x.osOpen (repo.Path ++ "/" ++ fn) with
    | .error e => (.error e, w1)
    | .ok data => (.ok data, w1)

/-! ## `unpackDir` -/

mutual
/-- The function `unpackDir` of `install.go`, called on the inode of a directory. -/
def unpackDir (dest : Path) : SqInode → M Unit
  | .dir entries =>
    M.bind (sys (osMkdirAll dest)) (fun _ => unpackEntries dest entries)
  | .unreadableDir e =>
    M.bind (sys (osMkdirAll dest)) (fun _ => fail e)
  | _ =>
    M.bind (sys (osMkdirAll dest)) (fun _ => fail (.os "readdir: not a directory"))
/-- The loop of `unpackDir` over the entries of the directory. -/
def unpackEntries (dest : Path) : SqEntries → M Unit
  | .nil => M.pure ()
  | .cons name inode rest =>
    let destName := dest ++ [name]
    M.bind
      (match inode with
        | .dir entries => unpackDir destName (.dir entries)
        | .unreadableDir e => unpackDir destName (.unreadableDir e)
        | .symlink (.error e) => fail e
        | .symlink (.ok target) => sys (osSymlink target destName)
        | .regular (.error e) => fail e
        | .regular (.ok data) =>
          M.bind (sys (osCreate destName)) (fun _ =>
          M.bind (ioCopy destName data) (fun n =>
          M.bind (addTotalBytes n) (fun _ =>
          sys osClose)))
        | .other => M.pure ())
      (fun _ => unpackEntries dest rest)
end

/-! ## `install1` -/

/-- The first entry of the listing whose name is `etc`. -/
def findEtc : SqEntries → Option SqInode
  | .nil => none
  | .cons name inode rest => if name = "etc" then some inode else findEtc rest

/-- The body of the first loop of `install1`: create `fn` in the staging
directory and copy the artifact `pkg/fn` of the repository into it. -/
def fetchInto (x : Ext) (repo : Repo) (tmpDir : Path) (fn : String) : M Unit :=
  M.bind (sys (osCreate (tmpDir ++ [fn]))) (fun _ =>
  M.bind (repoReader x repo ("pkg/" ++ fn)) (fun body =>
  M.bind (ioCopy (tmpDir ++ [fn]) body) (fun n =>
  M.bind (addTotalBytes n) (fun _ =>
  sys osClose))))

/-- The block of `install1` guarded by `first`: copy the `etc` subtree of the
staged image to `<root>/etc`. -/
def copyEtc (x : Ext) (root : String) (pkg : String) (tmpDir : Path) : M Unit :=
  M.bind (attempt (sys (mmapOpen (tmpDir ++ [pkg ++ ".squashfs"])))) (fun r =>
  match r with
  | .error e => fail (.copyingEtc e)
  | .ok image =>
    match x.NewReader image with
    | .error e => fail e
    | .ok (.dir entries) =>
      match findEtc entries with
      | none => M.pure ()
      | some inode =>
        M.bind (attempt (unpackDir [root, "etc"] inode)) (fun r1 =>
        match r1 with
        | .error e => fail (.copyingEtc e)
        | .ok _ => M.pure ())
    | .ok (.unreadableDir e) => fail e
    | .ok _ => fail (.os "readdir: not a directory"))

/-- The body of the second loop of `install1`: move `fn` from the staging
directory into `<root>/roimg`. -/
def commitFile (root : String) (tmpDir : Path) (fn : String) : M Unit :=
  sys (osRename (tmpDir ++ [fn]) [root, "roimg", fn])

/-- The staging directory of `install1`. -/
def stagingDir (x : Ext) (root pkg : String) : Path :=
  [root, "roimg", "tmp", "." ++ pkg ++ toString x.Getpid]

/-- The function `install1` of `install.go`. -/
def install1 (x : Ext) (root : String) (repo : Repo) (pkg : String) (first : Bool) : M Unit :=
  fun w0 =>
  let w := { w0 with calls := w0.calls ++ [⟨root, repo, pkg, first⟩] }
  if osStat [root, "roimg", pkg ++ ".squashfs"] w.fs then
    (.ok (), w)
  else
    let tmpDir := stagingDir x root pkg
    (M.bind (attempt (sys (osMkdir tmpDir))) (fun r =>
    match r with
    | .error e => if osIsExist e then M.pure () else fail e
    | .ok _ =>
      M.bind (forEach [pkg ++ ".squashfs", pkg ++ ".meta.textproto"]
        (fetchInto x repo tmpDir)) (fun _ =>
      M.bind (if first then copyEtc x root pkg tmpDir else M.pure ()) (fun _ =>
      M.bind (forEach [pkg ++ ".meta.textproto", pkg ++ ".squashfs"]
        (commitFile root tmpDir)) (fun _ =>
      sys (osRemove tmpDir)))))) w

/-! ## `installTransitively1` -/

/-- The choices the Go runtime makes for `installTransitively1`. -/
structure Sched where
  /-- The order in which `range` visits the entries of the map `metas`. -/
  rangeOrder : List (Meta × Repo) → List (Meta × Repo)
  /-- The order in which the goroutines of the `errgroup.Group` run. -/
  goOrder : List String → List String

/-- The first loop of `installTransitively1`: the metadata documents of `pkg`
found on the repositories, each with its repository. -/
def collectMetas (x : Ext) (pkg : String) : List Repo → M (List (Meta × Repo))
  | [] => M.pure []
  | repo :: rest =>
    M.bind (attempt (repoReader x repo ("pkg/" ++ pkg ++ ".meta.textproto"))) (fun r =>
    match r with
    | .error e => if isNotExist e then collectMetas x pkg rest else fail e
    | .ok rd =>
      M.bind (readAll rd) (fun b =>
      match x.UnmarshalText b with
      | .error e => fail e
      | .ok pm =>
        M.bind (collectMetas x pkg rest) (fun ms => M.pure ((pm, repo) :: ms))))

/-- The second loop of `installTransitively1` over the entries of `metas` in
the order `iter`: keep the first entry, replace it by a strictly greater one. -/
def selectMeta (iter : List (Meta × Repo)) : Option (Meta × Repo) :=
  iter.foldl (fun cur mr =>
    match cur with
    | none => some mr
    | some pm => if mr.1.Version > pm.1.Version then some mr else some pm) none

/-- The name under which `installTransitively1` looks the package up. -/
def qualify (x : Ext) (pkg : String) : String :=
  if !x.hasArchSuffix pkg && !x.likelyFullySpecified pkg then pkg ++ "-amd64" else pkg

/-- The name of the package artifact once its metadata is resolved. -/
def fullName (x : Ext) (pkg : String) (pm : Meta) : String :=
  if x.hasArchSuffix pkg then pkg ++ "-" ++ pm.Version else pkg

/-- An `errgroup.Group`: every task runs, `Wait` returns the first error. -/
def errgroup : List (M Unit) → M Unit
  | [] => M.pure ()
  | task :: tasks => fun w =>
    match task w with
    | (r, w1) =>
      match errgroup tasks w1 with
      | (rs, w2) =>
        match r with
        | .error e => (.error e, w2)
        | .ok _ => (rs, w2)

/-- The goroutine `installTransitively1` starts for one artifact. -/
def installTask (x : Ext) (root : String) (repo : Repo) (first : Bool) (pkg : String) :
    M Unit :=
  M.bind (attempt (install1 x root repo pkg first)) (fun r =>
  match r with
  | .error e => fail (.installing pkg e)
  | .ok _ => M.pure ())

/-- The function `installTransitively1` of `install.go`. -/
def installTransitively1 (x : Ext) (sched : Sched) (root : String) (repos : List Repo)
    (pkg : String) : M Unit :=
  let pkg1 := qualify x pkg
  M.bind (collectMetas x pkg1 repos) (fun metas =>
  match selectMeta (sched.rangeOrder metas) with
  | none => fail (.notOnAnyRepo pkg1)
  | some (pm, repo) =>
    let pkg2 := fullName x pkg1 pm
    let pkgs := pkg2 :: pm.RuntimeDep
    let first := true
    errgroup ((sched.goOrder pkgs).map (installTask x root repo first)))

/-! ## Reasoning about runs -/

/-- Two stores agree outside a set of paths. -/
def Agree (S : Path → Prop) (fs fs1 : FS) : Prop :=
  ∀ p, ¬ S p → fs1.lookup p = fs.lookup p

/-- The run of `m` from `w` ends with a result and a world satisfying `Q`,
every store it adds to the history satisfies `I`, and it only consumes faults. -/
def Run {α : Type} (m : M α) (w : World) (I : FS → Prop)
    (Q : Except Err α → World → Prop) : Prop :=
  Q (m w).1 (m w).2 ∧ (∀ s ∈ (m w).2.trace, s ∈ w.trace ∨ I s) ∧
    (m w).2.faults <:+ w.faults

/-- The paths `unpackDir` may write when it is called on `<root>/etc`: the root
itself and everything at or below `<root>/etc`. -/
def inEtc (root : String) (p : Path) : Prop :=
  p = [root] ∨ ∃ t, p = root :: "etc" :: t

/-- A system call writes only paths of `S`. -/
def Local {α : Type} (S : Path → Prop) (op : FS → Except Err (α × FS)) : Prop :=
  ∀ fs a fs1, op fs = .ok (a, fs1) → Agree S fs fs1

/-- The world differs from a reference (store, calls, reads) at most by the
content of paths of `S`. -/
def Quiet (S : Path → Prop) (fs0 : FS) (c0 : List Call) (r0 : List (Repo × String))
    (w : World) : Prop :=
  Agree S fs0 w.fs ∧ w.calls = c0 ∧ w.reads = r0

/-- What the first part of a sequence has to establish for the sequence to
satisfy `Q`: on success the rest runs to `Q`, on error `Q` holds at once. -/
def Cont {α β : Type} (f : α → M β) (I : FS → Prop) (Q : Except Err β → World → Prop) :
    Except Err α → World → Prop := fun r w1 =>
  match r with
  | .ok a => Run (f a) w1 I Q
  | .error e => Q (.error e) w1

/-! ## The files of a package -/

/-- The committed image of a package, `<root>/roimg/<pkg>.squashfs`. -/
abbrev imgPath (root pkg : String) : Path := [root, "roimg", pkg ++ ".squashfs"]

/-- The committed metadata of a package, `<root>/roimg/<pkg>.meta.textproto`. -/
abbrev metaPath (root pkg : String) : Path := [root, "roimg", pkg ++ ".meta.textproto"]

/-- The image of a package in its staging directory. -/
abbrev stagedImg (x : Ext) (root pkg : String) : Path :=
  stagingDir x root pkg ++ [pkg ++ ".squashfs"]

/-- The metadata of a package in its staging directory. -/
abbrev stagedMeta (x : Ext) (root pkg : String) : Path :=
  stagingDir x root pkg ++ [pkg ++ ".meta.textproto"]

/-- The staging directory of a package and the two files in it. -/
def inStaging (x : Ext) (root pkg : String) (p : Path) : Prop :=
  p = stagingDir x root pkg ∨ p = stagedImg x root pkg ∨ p = stagedMeta x root pkg

/-- The paths `install1` writes before it commits. -/
def preCommit (x : Ext) (root pkg : String) (p : Path) : Prop :=
  inEtc root p ∨ inStaging x root pkg p

/-- The paths `install1` may write for a package. -/
def footprint (x : Ext) (root pkg : String) (p : Path) : Prop :=
  preCommit x root pkg p ∨ p = imgPath root pkg ∨ p = metaPath root pkg

/-- Both files of the package are in the live store with the content the
repository delivers (`rI` for the image, `rM` for the metadata). -/
def Committed (rI rM : Except Err String) (root pkg : String) (s : FS) : Prop :=
  ∃ cI cM, rI = .ok cI ∧ rM = .ok cM ∧
    s.lookup (imgPath root pkg) = some (.file cI) ∧
    s.lookup (metaPath root pkg) = some (.file cM)

/-- The window between the two renames: the metadata is committed, the image
is as it was at the start and its fetched copy is complete in the staging
directory. -/
def HalfCommitted (x : Ext) (rI rM : Except Err String) (root pkg : String) (fs0 s : FS) :
    Prop :=
  ∃ cI cM, rI = .ok cI ∧ rM = .ok cM ∧
    s.lookup (imgPath root pkg) = fs0.lookup (imgPath root pkg) ∧
    s.lookup (metaPath root pkg) = some (.file cM) ∧
    s.lookup (stagedImg x root pkg) = some (.file cI)

/-- Before the first rename: image and metadata in the live store are as they
were at the start. -/
def Staging (root pkg : String) (fs0 s : FS) : Prop :=
  s.lookup (imgPath root pkg) = fs0.lookup (imgPath root pkg) ∧
  s.lookup (metaPath root pkg) = fs0.lookup (metaPath root pkg)

/-- What holds of every store an `install1` of the package started on `fs0`
passes through. -/
def Inv (x : Ext) (rI rM : Except Err String) (root pkg : String) (fs0 s : FS) : Prop :=
  Agree (footprint x root pkg) fs0 s ∧
    (Staging root pkg fs0 s ∨ HalfCommitted x rI rM root pkg fs0 s ∨
      Committed rI rM root pkg s)

/-! ## A concrete installation -/

/-- An image with a `bin` directory and an `etc` directory holding a file and
a symbolic link. -/
def demoImage : SqInode :=
  .dir (.cons "bin" (.dir .nil)
    (.cons "etc" (.dir (.cons "motd" (.regular (.ok "hi"))
      (.cons "lnk" (.symlink (.ok "motd")) .nil))) .nil))

/-- An environment with process id 42 in which `http://r` serves every
artifact (the body is the URL of the request, the metadata of `p-amd64` is
`M1`: version 1.0 with the runtime dependencies `a-amd64-1` and `b-amd64-1`)
and every other HTTP repository answers 404. -/
def demoExt : Ext where
  hasArchSuffix := fun s => stringsHasPrefix ⟨s.data.reverse⟩ "46dma-"
  likelyFullySpecified := fun _ => false
  UnmarshalText := fun s =>
    if s = "M1" then .ok ⟨"1.0", ["a-amd64-1", "b-amd64-1"]⟩ else .ok ⟨"2", []⟩
  NewReader := fun _ => .ok demoImage
  Getpid := 42
  httpDo := fun url =>
    if url = "http://r/pkg/p-amd64.meta.textproto" then .ok ⟨200, "200 OK", "M1"⟩
    else if stringsHasPrefix url "http://r/" then .ok ⟨200, "200 OK", url⟩
    else .ok ⟨404, "404 Not Found", ""⟩
  osOpen := fun _ => .error .enoent

/-- The repository `http://r`. -/
def demoRepo : Repo := ⟨"http://r"⟩

/-- A world whose store holds the root, `roimg` and an empty `roimg/tmp`, in
which the environment injects no fault. -/
def demoWorld : World where
  fs := ⟨[(["/"], .dir), (["/", "roimg"], .dir), (["/", "roimg", "tmp"], .dir)]⟩
  faults := []
  totalBytes := 0
  reads := []
  calls := []
  trace := []

/-- The concrete world with `/roimg/p.squashfs` already in the live store. -/
def demoInstalled : World :=
  { demoWorld with
    fs := ⟨(["/", "roimg", "p.squashfs"], .file "image") :: demoWorld.fs.entries⟩ }

/-- The concrete world with the staging directory `/roimg/tmp/.p42` already there. -/
def demoBusy : World :=
  { demoWorld with
    fs := ⟨(["/", "roimg", "tmp", ".p42"], .dir) :: demoWorld.fs.entries⟩ }

/-- A world without the staging area `/roimg/tmp`. -/
def demoNoTmp : World :=
  { demoWorld with fs := ⟨[(["/"], .dir), (["/", "roimg"], .dir)]⟩ }

/-- An environment in which every HTTP repository serves every artifact (the
body is the URL of the request), every metadata document declares version 1.0
without dependencies, every image is an empty directory and every name counts
as carrying an architecture suffix. -/
def tieExt : Ext where
  hasArchSuffix := fun _ => true
  likelyFullySpecified := fun _ => true
  UnmarshalText := fun _ => .ok ⟨"1.0", []⟩
  NewReader := fun _ => .ok (.dir .nil)
  Getpid := 42
  httpDo := fun url => .ok ⟨200, "200 OK", url⟩
  osOpen := fun _ => .error .enoent

/-- The environment injects no fault into the coming system calls. -/
def NoFaults (w : World) : Prop := ∀ f ∈ w.faults, f = none

/-- The artifact path of the metadata of a package. -/
abbrev metaFile (pkg : String) : String := "pkg/" ++ pkg ++ ".meta.textproto"

/-- The repository passes the resolution loop: it reports not-found, or it
delivers a document that parses. -/
def Passes (x : Ext) (pkg : String) (w : World) (repo : Repo) : Prop :=
  (∃ e, (repoReader x repo (metaFile pkg) w).1 = .error e ∧ isNotExist e = true) ∨
  (∃ b pm, (repoReader x repo (metaFile pkg) w).1 = .ok b ∧ x.UnmarshalText b = .ok pm)

/-- The concrete environment, except that `http://bad` answers every request
with status 500. -/
def brokenExt : Ext :=
  { demoExt with
    httpDo := fun url =>
      if stringsHasPrefix url "http://bad/" then .ok ⟨500, "500 Internal Server Error", ""⟩
      else demoExt.httpDo url }

/-- The package is installed from the repository and nothing of its staging
directory is left. -/
def Installed (x : Ext) (repo : Repo) (root : String) (w0 : World) (n : String) (s : FS) :
    Prop :=
  Committed (repoReader x repo ("pkg/" ++ (n ++ ".squashfs")) w0).1
    (repoReader x repo ("pkg/" ++ (n ++ ".meta.textproto")) w0).1 root n s ∧
  ∀ p, inStaging x root n p → s.lookup p = none

/-- The package is not installed and nothing of its staging directory exists. -/
def Fresh (x : Ext) (root : String) (n : String) (s : FS) : Prop :=
  s.lookup (imgPath root n) = none ∧ ∀ p, inStaging x root n p → s.lookup p = none

/-- The concrete environment with images that are empty directories. -/
def plainExt : Ext :=
  { demoExt with NewReader := fun _ => .ok (.dir .nil) }

/-- The environment `tieExt` with images that hold the file `etc/motd` with the
content `hi`. -/
def upgradeExt : Ext :=
  { tieExt with
    NewReader := fun _ =>
      .ok (.dir (.cons "etc" (.dir (.cons "motd" (.regular (.ok "hi")) .nil)) .nil)) }

/-- A world in which version 0.9 of `p-amd64` is installed and `/etc/motd` holds
the content `edited`. -/
def upgradeWorld : World :=
  { demoWorld with
    fs := ⟨[(["/"], .dir), (["/", "etc"], .dir), (["/", "etc", "motd"], .file "edited"),
      (["/", "roimg"], .dir), (["/", "roimg", "tmp"], .dir),
      (["/", "roimg", "p-amd64-0.9.squashfs"], .file "old image"),
      (["/", "roimg", "p-amd64-0.9.meta.textproto"], .file "old meta")]⟩ }

/-! ## Lemmas on the store and on strings -/

theorem FS.find_filter_ne (es : List (Path × Node)) {p q : Path} (h : q ≠ p) :
    List.find? (fun e => decide (e.1 = q)) (List.filter (fun e => decide (e.1 ≠ p)) es) =
      List.find? (fun e => decide (e.1 = q)) es := by
  induction es with
  | nil => rfl
  | cons e es ih =>
    by_cases he : e.1 = p
    · have hq : ¬ e.1 = q := fun e2 => h (e2.symm.trans he)
      rw [List.filter_cons_of_neg (by simpa using he), List.find?_cons_of_neg _ (by simpa using hq)]
      exact ih
    · rw [List.filter_cons_of_pos (by simpa using he)]
      by_cases hq : e.1 = q
      · rw [List.find?_cons_of_pos _ (by simpa using hq), List.find?_cons_of_pos _ (by simpa using hq)]
      · rw [List.find?_cons_of_neg _ (by simpa using hq), List.find?_cons_of_neg _ (by simpa using hq)]
        exact ih

theorem FS.lookup_set_self (fs : FS) (p : Path) (n : Node) : (fs.set p n).lookup p = some n := by
  simp [FS.lookup, FS.set]

theorem FS.lookup_set_ne (fs : FS) {p q : Path} (n : Node) (h : q ≠ p) :
    (fs.set p n).lookup q = fs.lookup q := by
  have h1 : ¬ p = q := fun e => h e.symm
  unfold FS.lookup FS.set
  rw [List.find?_cons_of_neg _ (by simpa using h1), FS.find_filter_ne _ h]

theorem FS.lookup_erase_self (fs : FS) (p : Path) : (fs.erase p).lookup p = none := by
  simp [FS.lookup, FS.erase]

theorem FS.lookup_erase_ne (fs : FS) {p q : Path} (h : q ≠ p) :
    (fs.erase p).lookup q = fs.lookup q := by
  unfold FS.lookup FS.erase
  rw [FS.find_filter_ne _ h]

theorem str_append_right_cancel {a b s : String} (h : a ++ s = b ++ s) : a = b := by
  have h1 := congrArg String.data h
  simp only [String.data_append] at h1
  exact String.ext (List.append_cancel_right h1)

theorem str_append_left_cancel {a b s : String} (h : s ++ a = s ++ b) : a = b := by
  have h1 := congrArg String.data h
  simp only [String.data_append] at h1
  exact String.ext (List.append_cancel_left h1)

theorem img_ne_meta (a b : String) : a ++ ".squashfs" ≠ b ++ ".meta.textproto" := by
  intro h
  have h1 := congrArg (fun s => s.data.reverse.head?) h
  simp [String.data_append] at h1
/-! ## Rules for runs -/

theorem run_mono {α : Type} {m : M α} {w : World} {I : FS → Prop}
    {Q Q1 : Except Err α → World → Prop} (h : Run m w I Q)
    (hq : ∀ r w1, Q r w1 → Q1 r w1) : Run m w I Q1 :=
  ⟨hq _ _ h.1, h.2⟩

theorem run_weaken {α : Type} {m : M α} {w : World} {I I1 : FS → Prop}
    {Q Q1 : Except Err α → World → Prop} (h : Run m w I Q)
    (hi : ∀ s, I s → I1 s) (hq : ∀ r w1, Q r w1 → Q1 r w1) : Run m w I1 Q1 :=
  ⟨hq _ _ h.1, fun s hs => (h.2.1 s hs).imp_right (hi s), h.2.2⟩

theorem run_pure {α : Type} {a : α} {w : World} {I : FS → Prop}
    {Q : Except Err α → World → Prop} (h : Q (.ok a) w) : Run (M.pure a) w I Q :=
  ⟨h, fun _ hs => Or.inl hs, List.suffix_refl _⟩

theorem run_fail {α : Type} {e : Err} {w : World} {I : FS → Prop}
    {Q : Except Err α → World → Prop} (h : Q (.error e) w) : Run (fail e) w I Q :=
  ⟨h, fun _ hs => Or.inl hs, List.suffix_refl _⟩

theorem run_bind {α β : Type} {m : M α} {f : α → M β} {w : World} {I : FS → Prop}
    {Q : Except Err β → World → Prop}
    (h : Run m w I (Cont f I Q)) : Run (M.bind m f) w I Q := by
  obtain ⟨h1, h2, h3⟩ := h
  unfold Cont at h1
  unfold Run M.bind
  rcases hm : m w with ⟨r, w1⟩
  rw [hm] at h1 h2 h3
  cases r with
  | error e => exact ⟨h1, h2, h3⟩
  | ok a =>
    simp only at h1 h2 h3 ⊢
    refine ⟨h1.1, fun s hs => ?_, h1.2.2.trans h3⟩
    rcases h1.2.1 s hs with h4 | h4
    · exact h2 s h4
    · exact Or.inr h4

theorem run_attempt {α : Type} {m : M α} {w : World} {I : FS → Prop}
    {Q : Except Err (Except Err α) → World → Prop}
    (h : Run m w I (fun r w1 => Q (.ok r) w1)) : Run (attempt m) w I Q := by
  unfold Run attempt
  exact h

theorem run_sys {α : Type} {op : FS → Except Err (α × FS)} {w : World} {I : FS → Prop}
    {Q : Except Err α → World → Prop}
    (hf : ∀ f, nextFault w = some f → Q (.error f.err) (tick w))
    (he : ∀ e, nextFault w = none → op w.fs = .error e → Q (.error e) (tick w))
    (hs : ∀ a fs1, nextFault w = none → op w.fs = .ok (a, fs1) →
      I fs1 ∧ Q (.ok a) { tick w with fs := fs1, trace := fs1 :: w.trace }) :
    Run (sys op) w I Q := by
  unfold Run sys
  cases hn : nextFault w with
  | some f => exact ⟨hf f hn, fun _ hs => Or.inl hs, List.tail_suffix _⟩
  | none =>
    cases ho : op w.fs with
    | error e => exact ⟨he e hn ho, fun _ hs => Or.inl hs, List.tail_suffix _⟩
    | ok r =>
      obtain ⟨a, fs1⟩ := r
      obtain ⟨h1, h2⟩ := hs a fs1 hn ho
      refine ⟨h2, fun s hs => ?_, List.tail_suffix _⟩
      simp only [tick, List.mem_cons] at hs
      rcases hs with rfl | hs
      · exact Or.inr h1
      · exact Or.inl hs

theorem run_ioCopy {p : Path} {data : String} {w : World} {I : FS → Prop}
    {Q : Except Err Nat → World → Prop}
    (hf : ∀ f, nextFault w = some f →
      I (w.fs.set p (.file (takeBytes f.written data))) ∧
      Q (.error f.err) { tick w with fs := w.fs.set p (.file (takeBytes f.written data)),
                                     trace := w.fs.set p (.file (takeBytes f.written data)) :: w.trace })
    (hs : nextFault w = none →
      I (w.fs.set p (.file data)) ∧
      Q (.ok data.utf8ByteSize) { tick w with fs := w.fs.set p (.file data),
                                              trace := w.fs.set p (.file data) :: w.trace }) :
    Run (ioCopy p data) w I Q := by
  unfold Run ioCopy
  cases hn : nextFault w with
  | some f =>
    obtain ⟨h1, h2⟩ := hf f hn
    refine ⟨h2, fun s hs => ?_, List.tail_suffix _⟩
    simp only [tick, List.mem_cons] at hs
    rcases hs with rfl | hs
    · exact Or.inr h1
    · exact Or.inl hs
  | none =>
    obtain ⟨h1, h2⟩ := hs hn
    refine ⟨h2, fun s hs => ?_, List.tail_suffix _⟩
    simp only [tick, List.mem_cons] at hs
    rcases hs with rfl | hs
    · exact Or.inr h1
    · exact Or.inl hs

theorem run_same {α : Type} {m : M α} {w : World} {I : FS → Prop}
    {Q : Except Err α → World → Prop} (ht : (m w).2.trace = w.trace)
    (hf : (m w).2.faults = w.faults) (h : Q (m w).1 (m w).2) : Run m w I Q :=
  ⟨h, fun _ hs => Or.inl (ht ▸ hs), hf ▸ List.suffix_refl _⟩

theorem repoReader_snd (x : Ext) (repo : Repo) (fn : String) (w : World) :
    (repoReader x repo fn w).2 = { w with reads := w.reads ++ [(repo, fn)] } := by
  unfold repoReader
  simp only
  split
  · split
    · rfl
    · split
      · split <;> rfl
      · rfl
  · split <;> rfl

theorem repoReader_fst (x : Ext) (repo : Repo) (fn : String) (w w1 : World) :
    (repoReader x repo fn w).1 = (repoReader x repo fn w1).1 := by
  unfold repoReader
  simp only
  split
  · split
    · rfl
    · split
      · split <;> rfl
      · rfl
  · split <;> rfl

/-! ## Frame lemmas -/

theorem Agree.refl (S : Path → Prop) (fs : FS) : Agree S fs fs := fun _ _ => rfl

theorem Agree.trans {S : Path → Prop} {a b c : FS} (h1 : Agree S a b) (h2 : Agree S b c) :
    Agree S a c := fun p hp => (h2 p hp).trans (h1 p hp)

theorem Agree.mono {S T : Path → Prop} {a b : FS} (h : Agree S a b) (hST : ∀ p, S p → T p) :
    Agree T a b := fun p hp => h p (fun hs => hp (hST p hs))

theorem agree_set {S : Path → Prop} (fs : FS) {p : Path} (n : Node) (hp : S p) :
    Agree S fs (fs.set p n) := fun _ hq =>
  FS.lookup_set_ne fs n (fun e => hq (e ▸ hp))

theorem agree_erase {S : Path → Prop} (fs : FS) {p : Path} (hp : S p) :
    Agree S fs (fs.erase p) := fun _ hq =>
  FS.lookup_erase_ne fs (fun e => hq (e ▸ hp))

theorem local_osMkdir {S : Path → Prop} {p : Path} (hp : S p) : Local S (osMkdir p) := by
  intro fs a fs1 h
  unfold osMkdir at h
  split at h
  · cases h
  · split at h
    · cases h; exact agree_set fs _ hp
    · cases h

theorem local_osCreate {S : Path → Prop} {p : Path} (hp : S p) : Local S (osCreate p) := by
  intro fs a fs1 h
  unfold osCreate at h
  split at h
  · cases h
  · cases h
  · split at h
    · cases h; exact agree_set fs _ hp
    · cases h

theorem local_osClose (S : Path → Prop) : Local S osClose := by
  intro fs a fs1 h
  cases h
  exact Agree.refl S fs

theorem local_osSymlink {S : Path → Prop} {p : Path} (target : String) (hp : S p) :
    Local S (osSymlink target p) := by
  intro fs a fs1 h
  unfold osSymlink at h
  split at h
  · cases h
  · split at h
    · cases h; exact agree_set fs _ hp
    · cases h

theorem local_osRemove {S : Path → Prop} {p : Path} (hp : S p) : Local S (osRemove p) := by
  intro fs a fs1 h
  unfold osRemove at h
  split at h
  · cases h
  · split at h
    · cases h
    · cases h; exact agree_erase fs hp
  · cases h; exact agree_erase fs hp

theorem local_osRename {S : Path → Prop} {src dst : Path} (hs : S src) (hd : S dst) :
    Local S (osRename src dst) := by
  intro fs a fs1 h
  unfold osRename at h
  split at h
  · cases h
  · cases h
  · split at h
    · cases h
    · split at h
      · cases h; exact (agree_erase fs hs).trans (agree_set _ _ hd)
      · cases h

theorem local_mmapOpen (S : Path → Prop) (p : Path) : Local S (mmapOpen p) := by
  intro fs a fs1 h
  unfold mmapOpen at h
  split at h
  · cases h; exact Agree.refl S fs
  · cases h
  · cases h

theorem osMkdirAllRev_agree {S : Path → Prop} (hS : ∀ p c, S (p ++ [c]) → p = [] ∨ S p) :
    ∀ (l : List String) (fs fs1 : FS), l = [] ∨ S l.reverse →
      osMkdirAllRev l fs = .ok fs1 → Agree S fs fs1 := by
  intro l
  induction l with
  | nil =>
    intro fs fs1 _ h
    simp only [osMkdirAllRev] at h
    cases h
    exact Agree.refl S fs
  | cons c rest ih =>
    intro fs fs1 hl h
    have hc : S (rest.reverse ++ [c]) := by
      rcases hl with hl | hl
      · cases hl
      · simpa using hl
    have hrest : rest = [] ∨ S rest.reverse := by
      rcases hS _ _ hc with h0 | h0
      · left; simpa using h0
      · right; exact h0
    unfold osMkdirAllRev at h
    split at h
    · cases h; exact Agree.refl S fs
    · cases h
    · split at h
      · cases h
      · rename_i fsA hA
        split at h
        · cases h
        · rename_i u fs2 hB
          cases h
          have h1 := ih fs fsA hrest hA
          have h2 : Agree S fsA fs1 := local_osMkdir (by simpa using hc) fsA u fs1 hB
          exact h1.trans h2

theorem inEtc_parent (root : String) : ∀ p c, inEtc root (p ++ [c]) → p = [] ∨ inEtc root p := by
  intro p c h
  rcases h with h | ⟨t, h⟩
  · left
    cases p with
    | nil => rfl
    | cons a p1 => cases p1 <;> simp at h
  · right
    cases p with
    | nil => simp at h
    | cons a p1 =>
      cases p1 with
      | nil =>
        left
        simp at h
        rw [h.1]
      | cons b p2 =>
        right
        simp only [List.cons_append, List.cons.injEq] at h
        obtain ⟨h1, h2, h3⟩ := h
        subst h1
        subst h2
        exact ⟨p2, rfl⟩

theorem local_osMkdirAll_etc (root : String) (t : List String) :
    Local (inEtc root) (osMkdirAll (root :: "etc" :: t)) := by
  intro fs a fs1 h
  unfold osMkdirAll at h
  split at h
  · cases h
  · rename_i fsA hA
    cases h
    refine osMkdirAllRev_agree (inEtc_parent root) _ fs fs1 (Or.inr ?_) hA
    rw [List.reverse_reverse]
    exact Or.inr ⟨t, rfl⟩
theorem run_seq {α β : Type} {m : M α} {f : α → M β} {w : World} {I : FS → Prop}
    {P : Except Err α → World → Prop} {Q : Except Err β → World → Prop}
    (hm : Run m w I P)
    (hok : ∀ a w1, P (.ok a) w1 → Run (f a) w1 I Q)
    (herr : ∀ e w1, P (.error e) w1 → Q (.error e) w1) : Run (M.bind m f) w I Q := by
  apply run_bind
  refine run_mono hm ?_
  intro r w1 h
  cases r with
  | error e => exact herr e w1 h
  | ok a => exact hok a w1 h
theorem quiet_tick {S : Path → Prop} {fs0 : FS} {c0 : List Call} {r0 : List (Repo × String)}
    {w : World} (h : Quiet S fs0 c0 r0 w) : Quiet S fs0 c0 r0 (tick w) := h

theorem run_sys_quiet {α : Type} {S : Path → Prop} {op : FS → Except Err (α × FS)}
    {fs0 : FS} {c0 : List Call} {r0 : List (Repo × String)} {w : World}
    (hop : Local S op) (h : Quiet S fs0 c0 r0 w) :
    Run (sys op) w (Agree S fs0) (fun _ w1 => Quiet S fs0 c0 r0 w1) := by
  apply run_sys
  · intro f _; exact h
  · intro e _ _; exact h
  · intro a fs1 _ ho
    have h1 : Agree S fs0 fs1 := h.1.trans (hop _ _ _ ho)
    exact ⟨h1, h1, h.2.1, h.2.2⟩

theorem run_ioCopy_quiet {S : Path → Prop} {p : Path} (data : String)
    {fs0 : FS} {c0 : List Call} {r0 : List (Repo × String)} {w : World}
    (hp : S p) (h : Quiet S fs0 c0 r0 w) :
    Run (ioCopy p data) w (Agree S fs0) (fun _ w1 => Quiet S fs0 c0 r0 w1) := by
  apply run_ioCopy
  · intro f _
    have h1 : Agree S fs0 (w.fs.set p (.file (takeBytes f.written data))) :=
      h.1.trans (agree_set _ _ hp)
    exact ⟨h1, h1, h.2.1, h.2.2⟩
  · intro _
    have h1 : Agree S fs0 (w.fs.set p (.file data)) := h.1.trans (agree_set _ _ hp)
    exact ⟨h1, h1, h.2.1, h.2.2⟩

theorem run_addTotalBytes {n : Nat} {w : World} {I : FS → Prop}
    {Q : Except Err Unit → World → Prop}
    (h : Q (.ok ()) { w with totalBytes := addInt64 w.totalBytes n }) :
    Run (addTotalBytes n) w I Q :=
  ⟨h, fun _ hs => Or.inl hs, List.suffix_refl _⟩

theorem run_mkdirAll_then_fail (root : String) (fs0 : FS) (c0 : List Call)
    (r0 : List (Repo × String)) (t : List String) (e : Err) (w : World)
    (h : Quiet (inEtc root) fs0 c0 r0 w) :
    Run (M.bind (sys (osMkdirAll (root :: "etc" :: t))) (fun _ => (fail e : M Unit))) w
      (Agree (inEtc root) fs0) (fun _ w1 => Quiet (inEtc root) fs0 c0 r0 w1) :=
  run_seq (run_sys_quiet (local_osMkdirAll_etc root t) h)
    (fun _ _ h1 => run_fail h1) (fun _ _ h1 => h1)

mutual
theorem unpackDir_quiet (root : String) (fs0 : FS) (c0 : List Call)
    (r0 : List (Repo × String)) :
    ∀ (inode : SqInode) (t : List String) (w : World), Quiet (inEtc root) fs0 c0 r0 w →
      Run (unpackDir (root :: "etc" :: t) inode) w (Agree (inEtc root) fs0)
        (fun _ w1 => Quiet (inEtc root) fs0 c0 r0 w1)
  | .dir entries, t, w, h => by
    unfold unpackDir
    exact run_seq (run_sys_quiet (local_osMkdirAll_etc root t) h)
      (fun _ w1 h1 => unpackEntries_quiet root fs0 c0 r0 entries t w1 h1) (fun _ _ h1 => h1)
  | .unreadableDir e, t, w, h => by
    unfold unpackDir
    exact run_mkdirAll_then_fail root fs0 c0 r0 t _ w h
  | .symlink _, t, w, h => by
    unfold unpackDir
    exact run_mkdirAll_then_fail root fs0 c0 r0 t _ w h
  | .regular _, t, w, h => by
    unfold unpackDir
    exact run_mkdirAll_then_fail root fs0 c0 r0 t _ w h
  | .other, t, w, h => by
    unfold unpackDir
    exact run_mkdirAll_then_fail root fs0 c0 r0 t _ w h
theorem unpackEntries_quiet (root : String) (fs0 : FS) (c0 : List Call)
    (r0 : List (Repo × String)) :
    ∀ (entries : SqEntries) (t : List String) (w : World), Quiet (inEtc root) fs0 c0 r0 w →
      Run (unpackEntries (root :: "etc" :: t) entries) w (Agree (inEtc root) fs0)
        (fun _ w1 => Quiet (inEtc root) fs0 c0 r0 w1)
  | .nil, t, w, h => by
    unfold unpackEntries
    exact run_pure h
  | .cons name inode rest, t, w, h => by
    have hd : inEtc root (root :: "etc" :: t ++ [name]) := Or.inr ⟨t ++ [name], rfl⟩
    unfold unpackEntries
    refine run_seq (P := fun _ w1 => Quiet (inEtc root) fs0 c0 r0 w1) ?_
      (fun _ w1 h1 => unpackEntries_quiet root fs0 c0 r0 rest t w1 h1) (fun _ _ h1 => h1)
    cases inode with
    | dir entries =>
      exact unpackDir_quiet root fs0 c0 r0 (.dir entries) (t ++ [name]) w h
    | unreadableDir e =>
      exact unpackDir_quiet root fs0 c0 r0 (.unreadableDir e) (t ++ [name]) w h
    | symlink target =>
      cases target with
      | error e => exact run_fail h
      | ok tg => exact run_sys_quiet (local_osSymlink tg hd) h
    | regular data =>
      cases data with
      | error e => exact run_fail h
      | ok d =>
        refine run_seq (run_sys_quiet (local_osCreate hd) h) ?_ (fun _ _ h1 => h1)
        intro _ w1 h1
        refine run_seq (run_ioCopy_quiet d hd h1) ?_ (fun _ _ h2 => h2)
        intro n w2 h2
        refine run_seq (P := fun _ w3 => Quiet (inEtc root) fs0 c0 r0 w3)
          (run_addTotalBytes h2) ?_ (fun _ _ h3 => h3)
        intro _ w3 h3
        exact run_sys_quiet (local_osClose _) h3
    | other => exact run_pure h
end
/-! ## The phases of `install1` -/

theorem fetchInto_run (x : Ext) (repo : Repo) (tmpDir : Path) (fn : String) (w : World) :
    Run (fetchInto x repo tmpDir fn) w (Agree (fun p => p = tmpDir ++ [fn]) w.fs)
      (fun r w1 => Agree (fun p => p = tmpDir ++ [fn]) w.fs w1.fs ∧ w1.calls = w.calls ∧
        (r = .ok () → ∃ c, (repoReader x repo ("pkg/" ++ fn) w).1 = .ok c ∧
          w1.fs.lookup (tmpDir ++ [fn]) = some (.file c))) := by
  unfold fetchInto
  refine run_seq (P := fun _ w1 => Agree (fun p => p = tmpDir ++ [fn]) w.fs w1.fs ∧
    w1.calls = w.calls) ?_ ?_ (fun _ _ h => ⟨h.1, h.2, fun h0 => by cases h0⟩)
  · apply run_sys
    · intro f _; exact ⟨Agree.refl _ _, rfl⟩
    · intro e _ _; exact ⟨Agree.refl _ _, rfl⟩
    · intro a fs1 _ ho
      have h1 := local_osCreate (S := fun p => p = tmpDir ++ [fn]) rfl _ _ _ ho
      exact ⟨h1, h1, rfl⟩
  intro _ w1 h1
  refine run_seq (P := fun r w2 => Agree (fun p => p = tmpDir ++ [fn]) w.fs w2.fs ∧
    w2.calls = w.calls ∧ r = (repoReader x repo ("pkg/" ++ fn) w).1) ?_ ?_
    (fun _ _ h => ⟨h.1, h.2.1, fun h0 => by cases h0⟩)
  · apply run_same
    · rw [repoReader_snd]
    · rw [repoReader_snd]
    · rw [repoReader_snd]
      exact ⟨h1.1, h1.2, repoReader_fst x repo _ w1 w⟩
  intro body w2 h2
  refine run_seq (P := fun r w3 => Agree (fun p => p = tmpDir ++ [fn]) w.fs w3.fs ∧
    w3.calls = w.calls ∧
    (∀ n, r = .ok n → w3.fs.lookup (tmpDir ++ [fn]) = some (.file body))) ?_ ?_
    (fun _ _ h => ⟨h.1, h.2.1, fun h0 => by cases h0⟩)
  · apply run_ioCopy
    · intro f _
      have h3 : Agree (fun p => p = tmpDir ++ [fn]) w.fs
          (w2.fs.set (tmpDir ++ [fn]) (.file (takeBytes f.written body))) :=
        h2.1.trans (agree_set _ _ rfl)
      exact ⟨h3, h3, h2.2.1, fun n h0 => by cases h0⟩
    · intro _
      have h3 : Agree (fun p => p = tmpDir ++ [fn]) w.fs
          (w2.fs.set (tmpDir ++ [fn]) (.file body)) :=
        h2.1.trans (agree_set _ _ rfl)
      exact ⟨h3, h3, h2.2.1, fun _ _ => FS.lookup_set_self _ _ _⟩
  intro n w3 h3
  refine run_seq (P := fun _ w4 => Agree (fun p => p = tmpDir ++ [fn]) w.fs w4.fs ∧
    w4.calls = w.calls ∧ w4.fs.lookup (tmpDir ++ [fn]) = some (.file body))
    (run_addTotalBytes ⟨h3.1, h3.2.1, h3.2.2 n rfl⟩) ?_ (fun _ _ h => ⟨h.1, h.2.1, fun h0 => by cases h0⟩)
  intro _ w4 h4
  apply run_sys
  · intro f _; exact ⟨h4.1, h4.2.1, fun h0 => by cases h0⟩
  · intro e _ _; exact ⟨h4.1, h4.2.1, fun h0 => by cases h0⟩
  · intro a fs1 _ ho
    cases ho
    exact ⟨h4.1, h4.1, h4.2.1, fun _ => ⟨body, h2.2.2.symm, h4.2.2⟩⟩
theorem copyEtc_run (x : Ext) (root pkg : String) (tmpDir : Path) (w : World) :
    Run (copyEtc x root pkg tmpDir) w (Agree (inEtc root) w.fs)
      (fun _ w1 => Quiet (inEtc root) w.fs w.calls w.reads w1) := by
  have h0 : Quiet (inEtc root) w.fs w.calls w.reads w := ⟨Agree.refl _ _, rfl, rfl⟩
  unfold copyEtc
  refine run_seq (P := fun _ w1 => Quiet (inEtc root) w.fs w.calls w.reads w1)
    (run_attempt (run_sys_quiet (local_mmapOpen _ _) h0)) ?_ (fun _ _ h => h)
  intro r w1 h1
  cases r with
  | error e => exact run_fail h1
  | ok image =>
    simp only
    split
    · exact run_fail h1
    · split
      · exact run_pure h1
      · rename_i inode _
        refine run_seq (P := fun _ w2 => Quiet (inEtc root) w.fs w.calls w.reads w2)
          (run_attempt (unpackDir_quiet root w.fs w.calls w.reads inode [] w1 h1)) ?_
          (fun _ _ h => h)
        intro r1 w2 h2
        cases r1 with
        | error e => exact run_fail h2
        | ok a => exact run_pure h2
    · exact run_fail h1
    · exact run_fail h1
/-! ## Paths of a package -/

theorem img_not_preCommit (x : Ext) (root pkg : String) :
    ¬ preCommit x root pkg (imgPath root pkg) := by
  simp [preCommit, inEtc, inStaging, imgPath, stagedImg, stagedMeta, stagingDir]

theorem meta_not_preCommit (x : Ext) (root pkg : String) :
    ¬ preCommit x root pkg (metaPath root pkg) := by
  simp [preCommit, inEtc, inStaging, metaPath, stagedImg, stagedMeta, stagingDir]

theorem staging_not_inEtc (x : Ext) (root pkg : String) (p : Path)
    (h : inStaging x root pkg p) : ¬ inEtc root p := by
  rcases h with h | h | h <;> subst h <;>
    simp [inEtc, stagedImg, stagedMeta, stagingDir]

theorem stagedImg_ne_stagedMeta (x : Ext) (root pkg : String) :
    stagedImg x root pkg ≠ stagedMeta x root pkg := by
  simp [stagedImg, stagedMeta, stagingDir, img_ne_meta]

theorem img_ne_metaPath (root pkg : String) : imgPath root pkg ≠ metaPath root pkg := by
  simp [imgPath, metaPath, img_ne_meta]

theorem osRename_ok {src dst : Path} {fs fs1 : FS} {a : Unit} {c : String}
    (hsrc : fs.lookup src = some (.file c)) (h : osRename src dst fs = .ok (a, fs1)) :
    fs1 = (fs.erase src).set dst (.file c) := by
  unfold osRename at h
  rw [hsrc] at h
  simp only at h
  split at h
  · cases h
  · split at h
    · cases h; rfl
    · cases h

theorem osRemove_ok {p : Path} {fs fs1 : FS} {a : Unit} (h : osRemove p fs = .ok (a, fs1)) :
    fs1 = fs.erase p := by
  unfold osRemove at h
  split at h
  · cases h
  · split at h
    · cases h
    · cases h; rfl
  · cases h; rfl

theorem osMkdir_ok {p : Path} {fs fs1 : FS} {a : Unit} (h : osMkdir p fs = .ok (a, fs1)) :
    fs1 = fs.set p .dir := by
  unfold osMkdir at h
  split at h
  · cases h
  · split at h
    · cases h; rfl
    · cases h

theorem osMkdir_error {p : Path} {fs : FS} {e : Err} (h : osMkdir p fs = .error e)
    (he : osIsExist e = true) : fs.lookup p ≠ none := by
  unfold osMkdir at h
  split at h
  · rename_i h1
    intro h2
    rw [h2] at h1
    cases h1
  · split at h
    · cases h
    · cases h; cases he
theorem inv_of_preCommit {x : Ext} {rI rM : Except Err String} {root pkg : String}
    {fs0 s : FS} (h : Agree (preCommit x root pkg) fs0 s) : Inv x rI rM root pkg fs0 s :=
  ⟨h.mono (fun _ hp => Or.inl hp),
    Or.inl ⟨h _ (img_not_preCommit x root pkg), h _ (meta_not_preCommit x root pkg)⟩⟩

theorem commit_run (x : Ext) (root pkg : String) (rI rM : Except Err String)
    (fs0 : FS) (c1 : List Call) (cI cM : String) (w : World)
    (hA : Agree (preCommit x root pkg) fs0 w.fs) (hc : w.calls = c1)
    (hrI : rI = .ok cI) (hrM : rM = .ok cM)
    (hI : w.fs.lookup (stagedImg x root pkg) = some (.file cI))
    (hM : w.fs.lookup (stagedMeta x root pkg) = some (.file cM)) :
    Run (M.bind (forEach [pkg ++ ".meta.textproto", pkg ++ ".squashfs"]
          (commitFile root (stagingDir x root pkg)))
        (fun _ => sys (osRemove (stagingDir x root pkg)))) w
      (Inv x rI rM root pkg fs0)
      (fun r w1 => Inv x rI rM root pkg fs0 w1.fs ∧ w1.calls = c1 ∧
        (r = .ok () → Committed rI rM root pkg w1.fs ∧
          ∀ p, inStaging x root pkg p → w1.fs.lookup p = none)) := by
  have hfoot : ∀ p, preCommit x root pkg p → footprint x root pkg p := fun _ hp => Or.inl hp
  have hAf : Agree (footprint x root pkg) fs0 w.fs := hA.mono hfoot
  have hinv0 : Inv x rI rM root pkg fs0 w.fs := inv_of_preCommit hA
  have hne1 : imgPath root pkg ≠ stagedMeta x root pkg := by
    simp [imgPath, stagedMeta, stagingDir]
  have hne2 : imgPath root pkg ≠ metaPath root pkg := img_ne_metaPath root pkg
  have hne3 : stagedImg x root pkg ≠ stagedMeta x root pkg := stagedImg_ne_stagedMeta x root pkg
  have hne4 : stagedImg x root pkg ≠ metaPath root pkg := by
    simp [metaPath, stagedImg, stagingDir]
  have hne5 : metaPath root pkg ≠ stagedImg x root pkg := fun h => hne4 h.symm
  have hne6 : metaPath root pkg ≠ imgPath root pkg := fun h => hne2 h.symm
  have hne7 : stagedMeta x root pkg ≠ stagedImg x root pkg := fun h => hne3 h.symm
  have hne8 : stagedMeta x root pkg ≠ imgPath root pkg := fun h => hne1 h.symm
  have hne9 : imgPath root pkg ≠ stagingDir x root pkg := by
    simp [imgPath, stagingDir]
  have hne10 : metaPath root pkg ≠ stagingDir x root pkg := by
    simp [metaPath, stagingDir]
  have hne11 : stagedImg x root pkg ≠ stagingDir x root pkg := by
    simp [stagedImg, stagingDir]
  have hne12 : stagedMeta x root pkg ≠ stagingDir x root pkg := by
    simp [stagedMeta, stagingDir]
  unfold forEach forEach forEach commitFile
  -- first rename: the metadata
  refine run_seq (P := fun r w1 => Inv x rI rM root pkg fs0 w1.fs ∧ w1.calls = c1 ∧
    (r = .ok () → Committed rI rM root pkg w1.fs ∧
      w1.fs.lookup (stagedImg x root pkg) = none ∧
      w1.fs.lookup (stagedMeta x root pkg) = none)) ?_ ?_
    (fun _ _ h => ⟨h.1, h.2.1, fun h0 => by cases h0⟩)
  · refine run_seq (P := fun r w1 => w1.calls = c1 ∧
      ((r = .ok () ∧ Agree (footprint x root pkg) fs0 w1.fs ∧
        w1.fs.lookup (imgPath root pkg) = fs0.lookup (imgPath root pkg) ∧
        w1.fs.lookup (metaPath root pkg) = some (.file cM) ∧
        w1.fs.lookup (stagedImg x root pkg) = some (.file cI) ∧
        w1.fs.lookup (stagedMeta x root pkg) = none) ∨
       ((∃ e, r = .error e) ∧ Inv x rI rM root pkg fs0 w1.fs))) ?_ ?_ ?_
    · apply run_sys
      · intro f _; exact ⟨hc, Or.inr ⟨⟨_, rfl⟩, hinv0⟩⟩
      · intro e _ _; exact ⟨hc, Or.inr ⟨⟨_, rfl⟩, hinv0⟩⟩
      · intro a fs1 _ ho
        have hfs1 := osRename_ok hM ho
        have hag : Agree (footprint x root pkg) fs0 fs1 := by
          rw [hfs1]
          refine hAf.trans ((agree_erase _ ?_).trans (agree_set _ _ ?_))
          · exact Or.inl (Or.inr (Or.inr (Or.inr rfl)))
          · exact Or.inr (Or.inr rfl)
        have h1 : fs1.lookup (imgPath root pkg) = fs0.lookup (imgPath root pkg) := by
          rw [hfs1, FS.lookup_set_ne _ _ hne2, FS.lookup_erase_ne _ hne1]
          exact hA _ (img_not_preCommit x root pkg)
        have h2 : fs1.lookup (metaPath root pkg) = some (.file cM) := by
          rw [hfs1, FS.lookup_set_self]
        have h3 : fs1.lookup (stagedImg x root pkg) = some (.file cI) := by
          rw [hfs1, FS.lookup_set_ne _ _ hne4, FS.lookup_erase_ne _ hne3]
          exact hI
        have h4 : fs1.lookup (stagedMeta x root pkg) = none := by
          have hne : stagedMeta x root pkg ≠ metaPath root pkg := by
            simp [metaPath, stagedMeta, stagingDir]
          rw [hfs1, FS.lookup_set_ne _ _ hne, FS.lookup_erase_self]
        exact ⟨⟨hag, Or.inr (Or.inl ⟨cI, cM, hrI, hrM, h1, h2, h3⟩)⟩, hc,
          Or.inl ⟨rfl, hag, h1, h2, h3, h4⟩⟩
    · -- second rename: the image
      intro _ w1 h1
      obtain ⟨hc1, h1 | h1⟩ := h1
      swap
      · obtain ⟨⟨e, he⟩, _⟩ := h1
        cases he
      obtain ⟨_, hag, hi, hm, hsi, hsm⟩ := h1
      have hinv1 : Inv x rI rM root pkg fs0 w1.fs :=
        ⟨hag, Or.inr (Or.inl ⟨cI, cM, hrI, hrM, hi, hm, hsi⟩)⟩
      refine run_seq (P := fun r w2 => Inv x rI rM root pkg fs0 w2.fs ∧ w2.calls = c1 ∧
        (r = .ok () → Committed rI rM root pkg w2.fs ∧
          w2.fs.lookup (stagedImg x root pkg) = none ∧
          w2.fs.lookup (stagedMeta x root pkg) = none)) ?_
        (fun _ _ h => run_pure h) (fun _ _ h => ⟨h.1, h.2.1, fun h0 => by cases h0⟩)
      apply run_sys
      · intro f _; exact ⟨hinv1, hc1, fun h0 => by cases h0⟩
      · intro e _ _; exact ⟨hinv1, hc1, fun h0 => by cases h0⟩
      · intro a fs2 _ ho
        have hfs2 := osRename_ok hsi ho
        have hag2 : Agree (footprint x root pkg) fs0 fs2 := by
          rw [hfs2]
          refine hag.trans ((agree_erase _ ?_).trans (agree_set _ _ ?_))
          · exact Or.inl (Or.inr (Or.inr (Or.inl rfl)))
          · exact Or.inr (Or.inl rfl)
        have h1 : fs2.lookup (imgPath root pkg) = some (.file cI) := by
          rw [hfs2, FS.lookup_set_self]
        have h2 : fs2.lookup (metaPath root pkg) = some (.file cM) := by
          rw [hfs2, FS.lookup_set_ne _ _ hne6, FS.lookup_erase_ne _ hne5]
          exact hm
        have h3 : fs2.lookup (stagedImg x root pkg) = none := by
          have hne : stagedImg x root pkg ≠ imgPath root pkg := by
            simp [imgPath, stagedImg, stagingDir]
          rw [hfs2, FS.lookup_set_ne _ _ hne, FS.lookup_erase_self]
        have h4 : fs2.lookup (stagedMeta x root pkg) = none := by
          rw [hfs2, FS.lookup_set_ne _ _ hne8, FS.lookup_erase_ne _ hne7]
          exact hsm
        have hcm : Committed rI rM root pkg fs2 := ⟨cI, cM, hrI, hrM, h1, h2⟩
        exact ⟨⟨hag2, Or.inr (Or.inr hcm)⟩, ⟨hag2, Or.inr (Or.inr hcm)⟩, hc1,
          fun _ => ⟨hcm, h3, h4⟩⟩
    · intro e w1 h1
      obtain ⟨hc1, h1 | h1⟩ := h1
      · cases h1.1
      · exact ⟨h1.2, hc1, fun h0 => by cases h0⟩
  · -- removal of the staging directory
    intro _ w2 h2
    obtain ⟨hinv2, hc2, h2⟩ := h2
    obtain ⟨hcm, hsi, hsm⟩ := h2 rfl
    obtain ⟨cI1, cM1, hr1, hr2, hi, hm⟩ := hcm
    apply run_sys
    · intro f _; exact ⟨hinv2, hc2, fun h0 => by cases h0⟩
    · intro e _ _; exact ⟨hinv2, hc2, fun h0 => by cases h0⟩
    · intro a fs3 _ ho
      have hfs3 := osRemove_ok ho
      have hag3 : Agree (footprint x root pkg) fs0 fs3 := by
        rw [hfs3]
        exact hinv2.1.trans (agree_erase _ (Or.inl (Or.inr (Or.inl rfl))))
      have hcm3 : Committed rI rM root pkg fs3 := by
        refine ⟨cI1, cM1, hr1, hr2, ?_, ?_⟩
        · rw [hfs3, FS.lookup_erase_ne _ hne9]; exact hi
        · rw [hfs3, FS.lookup_erase_ne _ hne10]; exact hm
      refine ⟨⟨hag3, Or.inr (Or.inr hcm3)⟩, ⟨hag3, Or.inr (Or.inr hcm3)⟩, hc2, fun _ => ⟨hcm3, ?_⟩⟩
      intro p hp
      rcases hp with hp | hp | hp
      · subst hp; rw [hfs3]; exact FS.lookup_erase_self _ _
      · subst hp; rw [hfs3, FS.lookup_erase_ne _ hne11]; exact hsi
      · subst hp; rw [hfs3, FS.lookup_erase_ne _ hne12]; exact hsm
theorem install1_body_run (x : Ext) (root : String) (repo : Repo) (pkg : String)
    (first : Bool) (rI rM : Except Err String) (w : World)
    (hrI : ∀ w1, (repoReader x repo ("pkg/" ++ (pkg ++ ".squashfs")) w1).1 = rI)
    (hrM : ∀ w1, (repoReader x repo ("pkg/" ++ (pkg ++ ".meta.textproto")) w1).1 = rM) :
    Run (M.bind (attempt (sys (osMkdir (stagingDir x root pkg)))) (fun r =>
        match r with
        | .error e => if osIsExist e then M.pure () else fail e
        | .ok _ =>
          M.bind (forEach [pkg ++ ".squashfs", pkg ++ ".meta.textproto"]
            (fetchInto x repo (stagingDir x root pkg))) (fun _ =>
          M.bind (if first then copyEtc x root pkg (stagingDir x root pkg) else M.pure ())
            (fun _ =>
          M.bind (forEach [pkg ++ ".meta.textproto", pkg ++ ".squashfs"]
            (commitFile root (stagingDir x root pkg))) (fun _ =>
          sys (osRemove (stagingDir x root pkg))))))) w
      (Inv x rI rM root pkg w.fs)
      (fun r w1 => Inv x rI rM root pkg w.fs w1.fs ∧ w1.calls = w.calls ∧
        (r = .ok () → w.fs.lookup (stagingDir x root pkg) = none → nextFault w = none →
          Committed rI rM root pkg w1.fs ∧
          ∀ p, inStaging x root pkg p → w1.fs.lookup p = none)) := by
  have hst : ∀ p, inStaging x root pkg p → preCommit x root pkg p := fun _ hp => Or.inr hp
  have hetc : ∀ p, inEtc root p → preCommit x root pkg p := fun _ hp => Or.inl hp
  refine run_seq (P := fun r w1 => w1.calls = w.calls ∧
    ((∃ e, r = .ok (.error e) ∧ w1.fs = w.fs ∧
        (osIsExist e = true → nextFault w = none →
          w.fs.lookup (stagingDir x root pkg) ≠ none)) ∨
      (r = .ok (.ok ()) ∧ Agree (preCommit x root pkg) w.fs w1.fs))) ?_ ?_ ?_
  · apply run_attempt
    apply run_sys
    · intro f hf
      exact ⟨rfl, Or.inl ⟨_, rfl, rfl, fun _ hn => by rw [hn] at hf; cases hf⟩⟩
    · intro e _ ho
      exact ⟨rfl, Or.inl ⟨_, rfl, rfl, fun he _ => osMkdir_error ho he⟩⟩
    · intro a fs1 _ ho
      have h1 : Agree (preCommit x root pkg) w.fs fs1 :=
        local_osMkdir (S := preCommit x root pkg) (hst _ (Or.inl rfl)) _ _ _ ho
      exact ⟨inv_of_preCommit h1, rfl, Or.inr ⟨rfl, h1⟩⟩
  · intro r w1 h1
    obtain ⟨hc1, h1 | h1⟩ := h1
    · obtain ⟨e, he, hfs, hex⟩ := h1
      cases he
      simp only
      split
      · rename_i hx
        refine run_pure ⟨?_, hc1, fun _ h3 h4 => absurd h3 (hex hx h4)⟩
        rw [hfs]
        exact inv_of_preCommit (Agree.refl _ _)
      · refine run_fail ⟨?_, hc1, fun h0 => by cases h0⟩
        rw [hfs]
        exact inv_of_preCommit (Agree.refl _ _)
    · obtain ⟨he, hA1⟩ := h1
      cases he
      simp only
      unfold forEach forEach forEach
      -- the two fetches
      refine run_seq (P := fun r w3 => Agree (preCommit x root pkg) w.fs w3.fs ∧
        w3.calls = w.calls ∧ (r = .ok () → ∃ cI cM, rI = .ok cI ∧ rM = .ok cM ∧
          w3.fs.lookup (stagedImg x root pkg) = some (.file cI) ∧
          w3.fs.lookup (stagedMeta x root pkg) = some (.file cM))) ?_ ?_
        (fun _ _ h => ⟨inv_of_preCommit h.1, h.2.1, fun h0 => by cases h0⟩)
      · refine run_seq (P := fun r w2 => Agree (preCommit x root pkg) w.fs w2.fs ∧
          w2.calls = w.calls ∧ (r = .ok () → ∃ cI, rI = .ok cI ∧
            w2.fs.lookup (stagedImg x root pkg) = some (.file cI))) ?_ ?_
          (fun _ _ h => ⟨h.1, h.2.1, fun h0 => by cases h0⟩)
        · refine run_weaken (fetchInto_run x repo (stagingDir x root pkg)
            (pkg ++ ".squashfs") w1) ?_ ?_
          · intro s hs
            exact inv_of_preCommit
              (hA1.trans (hs.mono (fun p hp => hst p (Or.inr (Or.inl hp)))))
          · intro r w2 h2
            refine ⟨hA1.trans (h2.1.mono (fun p hp => hst p (Or.inr (Or.inl hp)))),
              h2.2.1.trans hc1, fun hr => ?_⟩
            obtain ⟨c, hc, hl⟩ := h2.2.2 hr
            exact ⟨c, (hrI w1).symm.trans hc, hl⟩
        · intro _ w2 h2
          obtain ⟨hA2, hc2, h2⟩ := h2
          obtain ⟨cI, hcI, hlI⟩ := h2 rfl
          refine run_seq (P := fun r w3 => Agree (preCommit x root pkg) w.fs w3.fs ∧
            w3.calls = w.calls ∧ (r = .ok () → ∃ cI cM, rI = .ok cI ∧ rM = .ok cM ∧
              w3.fs.lookup (stagedImg x root pkg) = some (.file cI) ∧
              w3.fs.lookup (stagedMeta x root pkg) = some (.file cM))) ?_
            (fun _ _ h => run_pure h) (fun _ _ h => ⟨h.1, h.2.1, fun h0 => by cases h0⟩)
          refine run_weaken (fetchInto_run x repo (stagingDir x root pkg)
            (pkg ++ ".meta.textproto") w2) ?_ ?_
          · intro s hs
            exact inv_of_preCommit
              (hA2.trans (hs.mono (fun p hp => hst p (Or.inr (Or.inr hp)))))
          · intro r w3 h3
            refine ⟨hA2.trans (h3.1.mono (fun p hp => hst p (Or.inr (Or.inr hp)))),
              h3.2.1.trans hc2, fun hr => ?_⟩
            obtain ⟨c, hc, hl⟩ := h3.2.2 hr
            refine ⟨cI, c, hcI, (hrM w2).symm.trans hc, ?_, hl⟩
            rw [h3.1 _ (stagedImg_ne_stagedMeta x root pkg)]
            exact hlI
      · intro _ w3 h3
        obtain ⟨hA3, hc3, h3⟩ := h3
        obtain ⟨cI, cM, hcI, hcM, hlI, hlM⟩ := h3 rfl
        -- the extraction of etc
        refine run_seq (P := fun _ w4 => Agree (preCommit x root pkg) w.fs w4.fs ∧
          w4.calls = w.calls ∧
          w4.fs.lookup (stagedImg x root pkg) = some (.file cI) ∧
          w4.fs.lookup (stagedMeta x root pkg) = some (.file cM)) ?_ ?_
          (fun _ _ h => ⟨inv_of_preCommit h.1, h.2.1, fun h0 => by cases h0⟩)
        · cases first with
          | false => exact run_pure ⟨hA3, hc3, hlI, hlM⟩
          | true =>
            simp only [if_true]
            refine run_weaken (copyEtc_run x root pkg (stagingDir x root pkg) w3) ?_ ?_
            · intro s hs
              exact inv_of_preCommit (hA3.trans (hs.mono hetc))
            · intro r w4 h4
              refine ⟨hA3.trans (h4.1.mono hetc), h4.2.1.trans hc3, ?_, ?_⟩
              · rw [h4.1 _ (staging_not_inEtc x root pkg _ (Or.inr (Or.inl rfl)))]
                exact hlI
              · rw [h4.1 _ (staging_not_inEtc x root pkg _ (Or.inr (Or.inr rfl)))]
                exact hlM
        · intro _ w4 h4
          obtain ⟨hA4, hc4, hlI4, hlM4⟩ := h4
          refine run_mono (commit_run x root pkg rI rM w.fs w.calls cI cM w4 hA4 hc4
            hcI hcM hlI4 hlM4) ?_
          intro r w5 h5
          exact ⟨h5.1, h5.2.1, fun hr _ _ => h5.2.2 hr⟩
  · intro e w1 h1
    obtain ⟨_, h1 | h1⟩ := h1
    · obtain ⟨_, he, _⟩ := h1
      cases he
    · cases h1.1
theorem install1_run (x : Ext) (root : String) (repo : Repo) (pkg : String)
    (first : Bool) (w : World) :
    Run (install1 x root repo pkg first) w
      (Inv x (repoReader x repo ("pkg/" ++ (pkg ++ ".squashfs")) w).1
        (repoReader x repo ("pkg/" ++ (pkg ++ ".meta.textproto")) w).1 root pkg w.fs)
      (fun r w1 =>
        Inv x (repoReader x repo ("pkg/" ++ (pkg ++ ".squashfs")) w).1
          (repoReader x repo ("pkg/" ++ (pkg ++ ".meta.textproto")) w).1 root pkg w.fs w1.fs ∧
        w1.calls = w.calls ++ [⟨root, repo, pkg, first⟩] ∧
        (r = .ok () → w.fs.lookup (imgPath root pkg) = none →
          w.fs.lookup (stagingDir x root pkg) = none → nextFault w = none →
          Committed (repoReader x repo ("pkg/" ++ (pkg ++ ".squashfs")) w).1
            (repoReader x repo ("pkg/" ++ (pkg ++ ".meta.textproto")) w).1 root pkg w1.fs ∧
          ∀ p, inStaging x root pkg p → w1.fs.lookup p = none)) := by
  by_cases hs : osStat [root, "roimg", pkg ++ ".squashfs"] w.fs = true
  · have h : install1 x root repo pkg first w =
        (.ok (), { w with calls := w.calls ++ [⟨root, repo, pkg, first⟩] }) := by
      unfold install1
      simp only [hs, if_true]
    unfold Run
    rw [h]
    refine ⟨⟨inv_of_preCommit (Agree.refl _ _), rfl, fun _ h1 => ?_⟩,
      fun _ hs => Or.inl hs, List.suffix_refl _⟩
    unfold osStat at hs
    rw [h1] at hs
    cases hs
  · have h := install1_body_run x root repo pkg first
      (repoReader x repo ("pkg/" ++ (pkg ++ ".squashfs")) w).1
      (repoReader x repo ("pkg/" ++ (pkg ++ ".meta.textproto")) w).1
      { w with calls := w.calls ++ [⟨root, repo, pkg, first⟩] }
      (fun w1 => repoReader_fst x repo _ w1 w) (fun w1 => repoReader_fst x repo _ w1 w)
    obtain ⟨h1, h2, h3⟩ := h
    have he : install1 x root repo pkg first w =
        (M.bind (attempt (sys (osMkdir (stagingDir x root pkg)))) (fun r =>
        match r with
        | .error e => if osIsExist e then M.pure () else fail e
        | .ok _ =>
          M.bind (forEach [pkg ++ ".squashfs", pkg ++ ".meta.textproto"]
            (fetchInto x repo (stagingDir x root pkg))) (fun _ =>
          M.bind (if first then copyEtc x root pkg (stagingDir x root pkg) else M.pure ())
            (fun _ =>
          M.bind (forEach [pkg ++ ".meta.textproto", pkg ++ ".squashfs"]
            (commitFile root (stagingDir x root pkg))) (fun _ =>
          sys (osRemove (stagingDir x root pkg)))))))
          { w with calls := w.calls ++ [⟨root, repo, pkg, first⟩] } := by
      unfold install1
      simp only [hs]
      rfl
    unfold Run
    rw [he]
    exact ⟨⟨h1.1, h1.2.1, fun hr _ ht hn => h1.2.2 hr ht hn⟩, h2, h3⟩
/-! ## Claims about `install1` -/

/-- C1. Commit order of `install1`: started on a store in which
`<root>/roimg/<pkg>.squashfs` is absent, every store the run passes through
(every interruption point, whatever faults the environment injects) and the
final store satisfy: if the image is present in the live store, then the image
and the metadata are both present and hold exactly what the repository
delivers for them. -/
theorem install1_commit_order (x : Ext) (root : String) (repo : Repo) (pkg : String)
    (first : Bool) (w : World)
    (h0 : w.fs.lookup [root, "roimg", pkg ++ ".squashfs"] = none) :
    ∀ s, s ∈ (install1 x root repo pkg first w).2.trace ∨
        s = (install1 x root repo pkg first w).2.fs →
      s ∈ w.trace ∨
      (s.lookup [root, "roimg", pkg ++ ".squashfs"] ≠ none →
        ∃ cI cM,
          (repoReader x repo ("pkg/" ++ (pkg ++ ".squashfs")) w).1 = .ok cI ∧
          (repoReader x repo ("pkg/" ++ (pkg ++ ".meta.textproto")) w).1 = .ok cM ∧
          s.lookup [root, "roimg", pkg ++ ".squashfs"] = some (.file cI) ∧
          s.lookup [root, "roimg", pkg ++ ".meta.textproto"] = some (.file cM)) := by
  obtain ⟨h1, h2, _⟩ := install1_run x root repo pkg first w
  have key : ∀ s, Inv x (repoReader x repo ("pkg/" ++ (pkg ++ ".squashfs")) w).1
      (repoReader x repo ("pkg/" ++ (pkg ++ ".meta.textproto")) w).1 root pkg w.fs s →
      (s.lookup [root, "roimg", pkg ++ ".squashfs"] ≠ none →
        ∃ cI cM,
          (repoReader x repo ("pkg/" ++ (pkg ++ ".squashfs")) w).1 = .ok cI ∧
          (repoReader x repo ("pkg/" ++ (pkg ++ ".meta.textproto")) w).1 = .ok cM ∧
          s.lookup [root, "roimg", pkg ++ ".squashfs"] = some (.file cI) ∧
          s.lookup [root, "roimg", pkg ++ ".meta.textproto"] = some (.file cM)) := by
    intro s hinv hpres
    rcases hinv.2 with hA | hB | hC
    · exact absurd (hA.1.trans h0) hpres
    · obtain ⟨_, _, _, _, hi, _⟩ := hB
      exact absurd (hi.trans h0) hpres
    · exact hC
  intro s hs
  rcases hs with hs | hs
  · rcases h2 s hs with h3 | h3
    · exact Or.inl h3
    · exact Or.inr (key s h3)
  · subst hs
    exact Or.inr (key _ h1.1)

theorem install1_commit_order_witness :
    demoWorld.fs.lookup ["/", "roimg", "p" ++ ".squashfs"] = none ∧
    ∀ s, s ∈ (install1 demoExt "/" demoRepo "p" true demoWorld).2.trace ∨
        s = (install1 demoExt "/" demoRepo "p" true demoWorld).2.fs →
      s ∈ demoWorld.trace ∨
      (s.lookup ["/", "roimg", "p" ++ ".squashfs"] ≠ none →
        ∃ cI cM,
          (repoReader demoExt demoRepo ("pkg/" ++ ("p" ++ ".squashfs")) demoWorld).1 = .ok cI ∧
          (repoReader demoExt demoRepo ("pkg/" ++ ("p" ++ ".meta.textproto")) demoWorld).1
            = .ok cM ∧
          s.lookup ["/", "roimg", "p" ++ ".squashfs"] = some (.file cI) ∧
          s.lookup ["/", "roimg", "p" ++ ".meta.textproto"] = some (.file cM)) :=
  ⟨by decide, install1_commit_order demoExt "/" demoRepo "p" true demoWorld (by decide)⟩

/-- C2 (as stated, refuted). In the concrete installation the run of `install1`
passes through a store in which `/roimg/p.meta.textproto` is present while
`/roimg/p.squashfs` is absent: the state between the two renames. -/
theorem install1_meta_without_image :
    ∃ s ∈ (install1 demoExt "/" demoRepo "p" true demoWorld).2.trace,
      s.lookup ["/", "roimg", "p.meta.textproto"] ≠ none ∧
      s.lookup ["/", "roimg", "p.squashfs"] = none := by
  have h : ((install1 demoExt "/" demoRepo "p" true demoWorld).2.trace.any (fun s =>
      (s.lookup ["/", "roimg", "p.meta.textproto"]).isSome &&
      (s.lookup ["/", "roimg", "p.squashfs"]).isNone)) = true := by
    simp [install1, demoWorld, demoExt, demoRepo, demoImage, osStat, FS.lookup, stagingDir,
      M.bind, M.pure, fail, attempt, sys, nextFault, tick, osMkdir, FS.parentIsDir, FS.set,
      forEach, fetchInto, osCreate, repoReader, stringsHasPrefix, ioCopy, addTotalBytes,
      osClose, commitFile, osRename, FS.erase, osRemove, FS.hasChild, copyEtc, mmapOpen,
      findEtc, unpackDir, unpackEntries, osMkdirAll, osMkdirAllRev, osSymlink]
  rw [List.any_eq_true] at h
  obtain ⟨s, hs, hp⟩ := h
  rw [Bool.and_eq_true] at hp
  refine ⟨s, hs, ?_, ?_⟩
  · intro h0
    rw [h0] at hp
    exact absurd hp.1 (by decide)
  · exact Option.isNone_iff_eq_none.mp hp.2

/-- C2 (amended). Started on a store in which neither file of the package is in
the live store, every store the run of `install1` passes through and the final
store satisfy: if `<root>/roimg/<pkg>.meta.textproto` is present, then it holds
exactly the metadata the repository delivers, and the image the repository
delivers is completely written, either already at `<root>/roimg/<pkg>.squashfs`
or, in the window between the two renames, still in the staging directory
while `<root>/roimg/<pkg>.squashfs` is absent. -/
theorem install1_meta_implies_image_fetched (x : Ext) (root : String) (repo : Repo)
    (pkg : String) (first : Bool) (w : World)
    (hI : w.fs.lookup [root, "roimg", pkg ++ ".squashfs"] = none)
    (hM : w.fs.lookup [root, "roimg", pkg ++ ".meta.textproto"] = none) :
    ∀ s, s ∈ (install1 x root repo pkg first w).2.trace ∨
        s = (install1 x root repo pkg first w).2.fs →
      s ∈ w.trace ∨
      (s.lookup [root, "roimg", pkg ++ ".meta.textproto"] ≠ none →
        ∃ cI cM,
          (repoReader x repo ("pkg/" ++ (pkg ++ ".squashfs")) w).1 = .ok cI ∧
          (repoReader x repo ("pkg/" ++ (pkg ++ ".meta.textproto")) w).1 = .ok cM ∧
          s.lookup [root, "roimg", pkg ++ ".meta.textproto"] = some (.file cM) ∧
          (s.lookup [root, "roimg", pkg ++ ".squashfs"] = some (.file cI) ∨
            (s.lookup [root, "roimg", pkg ++ ".squashfs"] = none ∧
              s.lookup (stagingDir x root pkg ++ [pkg ++ ".squashfs"]) =
                some (.file cI)))) := by
  obtain ⟨h1, h2, _⟩ := install1_run x root repo pkg first w
  have key : ∀ s, Inv x (repoReader x repo ("pkg/" ++ (pkg ++ ".squashfs")) w).1
      (repoReader x repo ("pkg/" ++ (pkg ++ ".meta.textproto")) w).1 root pkg w.fs s →
      (s.lookup [root, "roimg", pkg ++ ".meta.textproto"] ≠ none →
        ∃ cI cM,
          (repoReader x repo ("pkg/" ++ (pkg ++ ".squashfs")) w).1 = .ok cI ∧
          (repoReader x repo ("pkg/" ++ (pkg ++ ".meta.textproto")) w).1 = .ok cM ∧
          s.lookup [root, "roimg", pkg ++ ".meta.textproto"] = some (.file cM) ∧
          (s.lookup [root, "roimg", pkg ++ ".squashfs"] = some (.file cI) ∨
            (s.lookup [root, "roimg", pkg ++ ".squashfs"] = none ∧
              s.lookup (stagingDir x root pkg ++ [pkg ++ ".squashfs"]) =
                some (.file cI)))) := by
    intro s hinv hpres
    rcases hinv.2 with hA | hB | hC
    · exact absurd (hA.2.trans hM) hpres
    · obtain ⟨cI, cM, h3, h4, hi, hm, hs⟩ := hB
      exact ⟨cI, cM, h3, h4, hm, Or.inr ⟨hi.trans hI, hs⟩⟩
    · obtain ⟨cI, cM, h3, h4, hi, hm⟩ := hC
      exact ⟨cI, cM, h3, h4, hm, Or.inl hi⟩
  intro s hs
  rcases hs with hs | hs
  · rcases h2 s hs with h3 | h3
    · exact Or.inl h3
    · exact Or.inr (key s h3)
  · subst hs
    exact Or.inr (key _ h1.1)

theorem install1_meta_implies_image_fetched_witness :
    demoWorld.fs.lookup ["/", "roimg", "p" ++ ".squashfs"] = none ∧
    demoWorld.fs.lookup ["/", "roimg", "p" ++ ".meta.textproto"] = none ∧
    ∀ s, s ∈ (install1 demoExt "/" demoRepo "p" true demoWorld).2.trace ∨
        s = (install1 demoExt "/" demoRepo "p" true demoWorld).2.fs →
      s ∈ demoWorld.trace ∨
      (s.lookup ["/", "roimg", "p" ++ ".meta.textproto"] ≠ none →
        ∃ cI cM,
          (repoReader demoExt demoRepo ("pkg/" ++ ("p" ++ ".squashfs")) demoWorld).1 = .ok cI ∧
          (repoReader demoExt demoRepo ("pkg/" ++ ("p" ++ ".meta.textproto")) demoWorld).1
            = .ok cM ∧
          s.lookup ["/", "roimg", "p" ++ ".meta.textproto"] = some (.file cM) ∧
          (s.lookup ["/", "roimg", "p" ++ ".squashfs"] = some (.file cI) ∨
            (s.lookup ["/", "roimg", "p" ++ ".squashfs"] = none ∧
              s.lookup (stagingDir demoExt "/" "p" ++ ["p" ++ ".squashfs"]) =
                some (.file cI)))) :=
  ⟨by decide, by decide,
    install1_meta_implies_image_fetched demoExt "/" demoRepo "p" true demoWorld
      (by decide) (by decide)⟩
theorem install1_noop (x : Ext) (root : String) (repo : Repo) (pkg : String) (first : Bool)
    (w : World) (h : w.fs.lookup [root, "roimg", pkg ++ ".squashfs"] ≠ none) :
    install1 x root repo pkg first w =
      (.ok (), { w with calls := w.calls ++ [⟨root, repo, pkg, first⟩] }) := by
  have hs : osStat [root, "roimg", pkg ++ ".squashfs"] w.fs = true := by
    unfold osStat
    exact Option.isSome_iff_ne_none.mpr h
  unfold install1
  simp only [hs, if_true]

/-- C3. Idempotence of `install1`: when `<root>/roimg/<pkg>.squashfs` exists,
`install1` returns success and leaves the world as it is except for the record
of its own invocation: same store, no call of `repoReader`, no system call
issued (no staging directory, no extraction), same byte counter.  In
particular, after a first `install1` that returned success without having been
deferred (the staging directory did not exist and the environment did not
interfere with its creation), a second `install1` of the same name, with any
value of `first`, is such a no-op. -/
theorem install1_idempotent (x : Ext) (root : String) (repo : Repo) (pkg : String)
    (first first2 : Bool) (w : World) :
    (w.fs.lookup [root, "roimg", pkg ++ ".squashfs"] ≠ none →
      install1 x root repo pkg first w =
        (.ok (), { w with calls := w.calls ++ [⟨root, repo, pkg, first⟩] })) ∧
    ((install1 x root repo pkg first w).1 = .ok () →
      w.fs.lookup (stagingDir x root pkg) = none → nextFault w = none →
      install1 x root repo pkg first2 (install1 x root repo pkg first w).2 =
        (.ok (), { (install1 x root repo pkg first w).2 with
          calls := (install1 x root repo pkg first w).2.calls ++
            [⟨root, repo, pkg, first2⟩] })) := by
  refine ⟨install1_noop x root repo pkg first w, fun hok htmp hn => ?_⟩
  apply install1_noop
  by_cases himg : w.fs.lookup [root, "roimg", pkg ++ ".squashfs"] = none
  · obtain ⟨h1, _, _⟩ := install1_run x root repo pkg first w
    obtain ⟨⟨cI, _, _, _, hi, _⟩, _⟩ := h1.2.2 hok himg htmp hn
    rw [hi]
    exact Option.some_ne_none _
  · rw [install1_noop x root repo pkg first w himg]
    exact himg

/-- C10. Concurrent-install deferral: for a package that is not installed, if
the staging directory `<root>/roimg/tmp/.<pkg><pid>` already exists when
`install1` tries to create it, `install1` returns success and changes nothing:
same store (the existing staging directory included), no call of `repoReader`,
nothing added to the history, same byte counter.  If the creation fails with
an error that is not of the already-exists kind, `install1` returns that error
and the store is unchanged as well. -/
theorem install1_deferral (x : Ext) (root : String) (repo : Repo) (pkg : String)
    (first : Bool) (w : World)
    (himg : w.fs.lookup [root, "roimg", pkg ++ ".squashfs"] = none) :
    (w.fs.lookup (stagingDir x root pkg) ≠ none → nextFault w = none →
      install1 x root repo pkg first w =
        (.ok (), { tick w with calls := w.calls ++ [⟨root, repo, pkg, first⟩] })) ∧
    (∀ e, (sys (osMkdir (stagingDir x root pkg)) w).1 = .error e → osIsExist e = false →
      install1 x root repo pkg first w =
        (.error e, { tick w with calls := w.calls ++ [⟨root, repo, pkg, first⟩] })) := by
  have hs : osStat [root, "roimg", pkg ++ ".squashfs"] w.fs = false := by
    unfold osStat
    rw [himg]
    rfl
  constructor
  · intro htmp hn
    have hsome : (w.fs.lookup (stagingDir x root pkg)).isSome = true :=
      Option.isSome_iff_ne_none.mpr htmp
    have hn1 : nextFault { w with calls := w.calls ++ [⟨root, repo, pkg, first⟩] } = none := hn
    unfold install1
    simp only [hs, M.bind, attempt, sys, hn1, osMkdir, hsome, if_true, osIsExist, M.pure]
    rfl
  · intro e he hex
    unfold install1
    simp only [hs, M.bind, attempt]
    unfold sys at he ⊢
    cases hn : nextFault w with
    | some f =>
      have hn1 : nextFault { w with calls := w.calls ++ [⟨root, repo, pkg, first⟩] } = some f :=
        hn
      rw [hn] at he
      simp only at he
      cases he
      simp only [hn1, hex, fail]
      rfl
    | none =>
      have hn1 : nextFault { w with calls := w.calls ++ [⟨root, repo, pkg, first⟩] } = none := hn
      rw [hn] at he
      simp only at he
      simp only [hn1]
      cases ho : osMkdir (stagingDir x root pkg) w.fs with
      | error e1 =>
        rw [ho] at he
        simp only at he
        cases he
        simp only [hex, fail]
        rfl
      | ok r =>
        rw [ho] at he
        cases he
theorem demo_install1_ok : (install1 demoExt "/" demoRepo "p" true demoWorld).1 = .ok () := by
  simp [install1, demoWorld, demoExt, demoRepo, demoImage, osStat, FS.lookup, stagingDir,
    M.bind, M.pure, fail, attempt, sys, nextFault, tick, osMkdir, FS.parentIsDir, FS.set,
    forEach, fetchInto, osCreate, repoReader, stringsHasPrefix, ioCopy, addTotalBytes,
    osClose, commitFile, osRename, FS.erase, osRemove, FS.hasChild, copyEtc, mmapOpen,
    findEtc, unpackDir, unpackEntries, osMkdirAll, osMkdirAllRev, osSymlink]

theorem install1_idempotent_witness :
    (install1 demoExt "/" demoRepo "p" true demoInstalled =
        (.ok (), { demoInstalled with
          calls := demoInstalled.calls ++ [⟨"/", demoRepo, "p", true⟩] })) ∧
    (install1 demoExt "/" demoRepo "p" false
        (install1 demoExt "/" demoRepo "p" true demoWorld).2 =
      (.ok (), { (install1 demoExt "/" demoRepo "p" true demoWorld).2 with
        calls := (install1 demoExt "/" demoRepo "p" true demoWorld).2.calls ++
          [⟨"/", demoRepo, "p", false⟩] })) :=
  ⟨(install1_idempotent demoExt "/" demoRepo "p" true false demoInstalled).1 (by decide),
    (install1_idempotent demoExt "/" demoRepo "p" true false demoWorld).2
      demo_install1_ok (by decide) (by decide)⟩

theorem install1_deferral_witness :
    (install1 demoExt "/" demoRepo "p" true demoBusy =
        (.ok (), { tick demoBusy with
          calls := demoBusy.calls ++ [⟨"/", demoRepo, "p", true⟩] })) ∧
    (install1 demoExt "/" demoRepo "p" true demoNoTmp =
        (.error .enoent, { tick demoNoTmp with
          calls := demoNoTmp.calls ++ [⟨"/", demoRepo, "p", true⟩] })) :=
  ⟨(install1_deferral demoExt "/" demoRepo "p" true demoBusy (by decide)).1
      (by decide) (by decide),
    (install1_deferral demoExt "/" demoRepo "p" true demoNoTmp (by decide)).2 .enoent
      (by rfl) (by decide)⟩
/-! ## Version selection -/

theorem selectMeta_foldl (iter : List (Meta × Repo)) :
    ∀ cur : Meta × Repo, ∃ sel,
      iter.foldl (fun cur mr =>
        match cur with
        | none => some mr
        | some pm => if mr.1.Version > pm.1.Version then some mr else some pm) (some cur)
        = some sel ∧
      (sel = cur ∨ sel ∈ iter) ∧ ¬ (cur.1.Version > sel.1.Version) ∧
      ∀ d ∈ iter, ¬ (d.1.Version > sel.1.Version) := by
  induction iter with
  | nil =>
    intro cur
    exact ⟨cur, rfl, Or.inl rfl, lt_irrefl _, fun _ hd => by cases hd⟩
  | cons a rest ih =>
    intro cur
    simp only [List.foldl_cons]
    by_cases hgt : a.1.Version > cur.1.Version
    · simp only [hgt, if_true]
      obtain ⟨sel, h1, h2, h3, h4⟩ := ih a
      refine ⟨sel, h1, ?_, ?_, ?_⟩
      · rcases h2 with h2 | h2
        · exact Or.inr (h2 ▸ List.mem_cons_self _ _)
        · exact Or.inr (List.mem_cons_of_mem _ h2)
      · intro h5
        exact h3 (lt_trans h5 hgt)
      · intro d hd
        rcases List.mem_cons.mp hd with hd | hd
        · exact hd ▸ h3
        · exact h4 d hd
    · simp only [hgt, if_false]
      obtain ⟨sel, h1, h2, h3, h4⟩ := ih cur
      refine ⟨sel, h1, ?_, h3, ?_⟩
      · rcases h2 with h2 | h2
        · exact Or.inl h2
        · exact Or.inr (List.mem_cons_of_mem _ h2)
      · intro d hd
        rcases List.mem_cons.mp hd with hd | hd
        · subst hd
          intro h5
          exact hgt (lt_of_le_of_lt (not_lt.mp h3) h5)
        · exact h4 d hd

theorem selectMeta_spec (iter : List (Meta × Repo)) (hne : iter ≠ []) :
    ∃ sel, selectMeta iter = some sel ∧ sel ∈ iter ∧
      ∀ d ∈ iter, ¬ (d.1.Version > sel.1.Version) := by
  cases iter with
  | nil => exact absurd rfl hne
  | cons a rest =>
    obtain ⟨sel, h1, h2, h3, h4⟩ := selectMeta_foldl rest a
    refine ⟨sel, ?_, ?_, ?_⟩
    · unfold selectMeta
      simp only [List.foldl_cons]
      exact h1
    · rcases h2 with h2 | h2
      · exact h2 ▸ List.mem_cons_self _ _
      · exact List.mem_cons_of_mem _ h2
    · intro d hd
      rcases List.mem_cons.mp hd with hd | hd
      · exact hd ▸ h3
      · exact h4 d hd

/-- C5. Version selection in `installTransitively1`: for every non-empty
collection of retrieved metadata documents and every order in which the map
iteration visits them, the selection loop picks one of the retrieved documents
and no retrieved document has a version strictly greater (Go string order)
than the picked one.  For documents with the versions 1.0, 2.3 and 1.9 the
picked version is 2.3 in every iteration order. -/
theorem selectMeta_highest :
    (∀ metas iter : List (Meta × Repo), metas ≠ [] → iter.Perm metas →
      ∃ sel, selectMeta iter = some sel ∧ sel ∈ metas ∧
        ∀ d ∈ metas, ¬ (d.1.Version > sel.1.Version)) ∧
    (∀ (d1 d2 d3 : List String) (r1 r2 r3 : Repo) (iter : List (Meta × Repo)),
      iter.Perm [(⟨"1.0", d1⟩, r1), (⟨"2.3", d2⟩, r2), (⟨"1.9", d3⟩, r3)] →
      (selectMeta iter).map (fun sel => sel.1.Version) = some "2.3") := by
  have gen : ∀ metas iter : List (Meta × Repo), metas ≠ [] → iter.Perm metas →
      ∃ sel, selectMeta iter = some sel ∧ sel ∈ metas ∧
        ∀ d ∈ metas, ¬ (d.1.Version > sel.1.Version) := by
    intro metas iter hne hp
    have hne1 : iter ≠ [] := fun h => hne (by rw [h] at hp; exact hp.symm.eq_nil)
    obtain ⟨sel, h1, h2, h3⟩ := selectMeta_spec iter hne1
    exact ⟨sel, h1, hp.mem_iff.mp h2, fun d hd => h3 d (hp.mem_iff.mpr hd)⟩
  refine ⟨gen, ?_⟩
  intro d1 d2 d3 r1 r2 r3 iter hp
  obtain ⟨sel, h1, h2, h3⟩ := gen _ iter (List.cons_ne_nil _ _) hp
  rw [h1]
  simp only [Option.map_some', Option.some.injEq]
  have hmax := h3 (⟨"2.3", d2⟩, r2) (by simp)
  simp only [List.mem_cons, List.mem_singleton, List.not_mem_nil, or_false] at h2
  rcases h2 with h2 | h2 | h2
  · subst h2
    exact absurd (String.lt_iff_toList_lt.mpr (by decide) : ("2.3" : String) > "1.0") hmax
  · subst h2
    rfl
  · subst h2
    exact absurd (String.lt_iff_toList_lt.mpr (by decide) : ("2.3" : String) > "1.9") hmax

theorem selectMeta_highest_witness :
    (∃ sel, selectMeta [(⟨"1.9", []⟩, demoRepo), (⟨"2.3", []⟩, ⟨"http://s"⟩)] = some sel ∧
      sel ∈ [((⟨"2.3", []⟩ : Meta), (⟨"http://s"⟩ : Repo)), (⟨"1.9", []⟩, demoRepo)] ∧
      ∀ d ∈ [((⟨"2.3", []⟩ : Meta), (⟨"http://s"⟩ : Repo)), (⟨"1.9", []⟩, demoRepo)],
        ¬ (d.1.Version > sel.1.Version)) ∧
    (selectMeta [(⟨"1.9", []⟩, demoRepo), (⟨"1.0", ["a"]⟩, demoRepo),
        (⟨"2.3", []⟩, ⟨"http://s"⟩)]).map (fun sel => sel.1.Version) = some "2.3" :=
  ⟨selectMeta_highest.1 _ _ (List.cons_ne_nil _ _) (List.Perm.swap _ _ _),
    selectMeta_highest.2 ["a"] [] [] demoRepo ⟨"http://s"⟩ demoRepo _
      ((List.Perm.swap _ _ _).trans (List.Perm.cons _ (List.Perm.swap _ _ _)))⟩
set_option synthInstance.maxHeartbeats 400000 in
theorem tie_run_forward :
    (installTransitively1 tieExt ⟨id, id⟩ "/" [⟨"http://r"⟩, ⟨"http://s"⟩] "p-amd64"
        demoWorld).2.fs.lookup ["/", "roimg", "p-amd64-1.0.squashfs"] =
      some (.file "http://r/pkg/p-amd64-1.0.squashfs") := by
  simp [installTransitively1, qualify, fullName, collectMetas, selectMeta, readAll, errgroup,
    installTask, install1, demoWorld, tieExt, osStat, FS.lookup, stagingDir,
    M.bind, M.pure, fail, attempt, sys, nextFault, tick, osMkdir, FS.parentIsDir, FS.set,
    forEach, fetchInto, osCreate, repoReader, stringsHasPrefix, ioCopy, addTotalBytes,
    osClose, commitFile, osRename, FS.erase, osRemove, FS.hasChild, copyEtc, mmapOpen,
    findEtc]

set_option synthInstance.maxHeartbeats 400000 in
theorem tie_run_reverse :
    (installTransitively1 tieExt ⟨List.reverse, id⟩ "/" [⟨"http://r"⟩, ⟨"http://s"⟩] "p-amd64"
        demoWorld).2.fs.lookup ["/", "roimg", "p-amd64-1.0.squashfs"] =
      some (.file "http://s/pkg/p-amd64-1.0.squashfs") := by
  simp [installTransitively1, qualify, fullName, collectMetas, selectMeta, readAll, errgroup,
    installTask, install1, demoWorld, tieExt, osStat, FS.lookup, stagingDir,
    M.bind, M.pure, fail, attempt, sys, nextFault, tick, osMkdir, FS.parentIsDir, FS.set,
    forEach, fetchInto, osCreate, repoReader, stringsHasPrefix, ioCopy, addTotalBytes,
    osClose, commitFile, osRename, FS.erase, osRemove, FS.hasChild, copyEtc, mmapOpen,
    findEtc]

/-- C6 (as stated, refuted). Two repositories carry `p-amd64` in the same
(highest) version 1.0.  With identical package name, repository list,
repository contents and initial world, a run whose map iteration visits the
documents in collection order installs the image served by `http://r`, and a
run whose map iteration visits them in the reverse order installs the image
served by `http://s`. -/
theorem resolution_depends_on_map_order :
    (installTransitively1 tieExt ⟨id, id⟩ "/" [⟨"http://r"⟩, ⟨"http://s"⟩] "p-amd64"
        demoWorld).2.fs.lookup ["/", "roimg", "p-amd64-1.0.squashfs"] =
      some (.file "http://r/pkg/p-amd64-1.0.squashfs") ∧
    (installTransitively1 tieExt ⟨List.reverse, id⟩ "/" [⟨"http://r"⟩, ⟨"http://s"⟩] "p-amd64"
        demoWorld).2.fs.lookup ["/", "roimg", "p-amd64-1.0.squashfs"] =
      some (.file "http://s/pkg/p-amd64-1.0.squashfs") :=
  ⟨tie_run_forward, tie_run_reverse⟩

/-- C6 (amended). For every collection of retrieved metadata documents and any
two orders in which the map iteration may visit them, the selected version is
the same; and when no two retrieved documents tie for the highest version, the
selected document and its originating repository are the same as well. -/
theorem selectMeta_stable (metas iter1 iter2 : List (Meta × Repo))
    (h1 : iter1.Perm metas) (h2 : iter2.Perm metas) :
    (selectMeta iter1).map (fun sel => sel.1.Version) =
      (selectMeta iter2).map (fun sel => sel.1.Version) ∧
    ((∀ d1 ∈ metas, ∀ d2 ∈ metas, d1.1.Version = d2.1.Version →
        (∀ d ∈ metas, ¬ (d.1.Version > d1.1.Version)) → d1 = d2) →
      selectMeta iter1 = selectMeta iter2) := by
  cases metas with
  | nil =>
    rw [h1.eq_nil, h2.eq_nil]
    exact ⟨rfl, fun _ => rfl⟩
  | cons a rest =>
    have hne1 : iter1 ≠ [] := fun h => by rw [h] at h1; exact absurd h1.symm.eq_nil (by simp)
    have hne2 : iter2 ≠ [] := fun h => by rw [h] at h2; exact absurd h2.symm.eq_nil (by simp)
    obtain ⟨s1, e1, m1, x1⟩ := selectMeta_spec iter1 hne1
    obtain ⟨s2, e2, m2, x2⟩ := selectMeta_spec iter2 hne2
    have m1' : s1 ∈ a :: rest := h1.mem_iff.mp m1
    have m2' : s2 ∈ a :: rest := h2.mem_iff.mp m2
    have hv : s1.1.Version = s2.1.Version :=
      le_antisymm (not_lt.mp (x2 s1 (h2.mem_iff.mpr m1'))) (not_lt.mp (x1 s2 (h1.mem_iff.mpr m2')))
    rw [e1, e2]
    refine ⟨by simp [hv], fun hno => ?_⟩
    rw [hno s1 m1' s2 m2' hv (fun d hd => x1 d (h1.mem_iff.mpr hd))]

theorem selectMeta_stable_witness :
    (selectMeta [((⟨"1.9", []⟩ : Meta), demoRepo), (⟨"2.3", []⟩, ⟨"http://s"⟩)]).map
        (fun sel => sel.1.Version) =
      (selectMeta [((⟨"2.3", []⟩ : Meta), (⟨"http://s"⟩ : Repo)), (⟨"1.9", []⟩, demoRepo)]).map
        (fun sel => sel.1.Version) ∧
    selectMeta [((⟨"1.9", []⟩ : Meta), demoRepo), (⟨"2.3", []⟩, ⟨"http://s"⟩)] =
      selectMeta [((⟨"2.3", []⟩ : Meta), (⟨"http://s"⟩ : Repo)), (⟨"1.9", []⟩, demoRepo)] :=
  ⟨(selectMeta_stable [((⟨"1.9", []⟩ : Meta), demoRepo), (⟨"2.3", []⟩, ⟨"http://s"⟩)] _ _
      (List.Perm.refl _) (List.Perm.swap _ _ _)).1,
    (selectMeta_stable [((⟨"1.9", []⟩ : Meta), demoRepo), (⟨"2.3", []⟩, ⟨"http://s"⟩)] _ _
      (List.Perm.refl _) (List.Perm.swap _ _ _)).2 (by
        intro d1 hd1 d2 hd2 hv _
        simp only [List.mem_cons, List.mem_singleton, List.not_mem_nil, or_false] at hd1 hd2
        rcases hd1 with rfl | rfl <;> rcases hd2 with rfl | rfl
        · rfl
        · exact absurd hv (by decide)
        · exact absurd hv (by decide)
        · rfl)⟩
/-! ## The resolution loop -/

theorem repoReader_eq (x : Ext) (repo : Repo) (fn : String) (w : World) :
    repoReader x repo fn w =
      ((repoReader x repo fn w).1, { w with reads := w.reads ++ [(repo, fn)] }) :=
  Prod.ext rfl (repoReader_snd x repo fn w)

theorem collectMetas_skip (x : Ext) (pkg : String) (repo : Repo) (rest : List Repo)
    (w : World) (e : Err) (h : (repoReader x repo (metaFile pkg) w).1 = .error e)
    (hne : isNotExist e = true) :
    collectMetas x pkg (repo :: rest) w =
      collectMetas x pkg rest { w with reads := w.reads ++ [(repo, metaFile pkg)] } := by
  rw [collectMetas]
  simp only [M.bind, attempt]
  rw [repoReader_eq, h]
  simp only [hne, if_true]

theorem collectMetas_abort (x : Ext) (pkg : String) (repo : Repo) (rest : List Repo)
    (w : World) (e : Err) (h : (repoReader x repo (metaFile pkg) w).1 = .error e)
    (hne : isNotExist e = false) :
    collectMetas x pkg (repo :: rest) w =
      (.error e, { w with reads := w.reads ++ [(repo, metaFile pkg)] }) := by
  rw [collectMetas]
  simp only [M.bind, attempt]
  rw [repoReader_eq, h]
  simp only [hne, fail]
  rfl

theorem collectMetas_parsed (x : Ext) (pkg : String) (repo : Repo) (rest : List Repo)
    (w : World) (b : String) (pm : Meta)
    (h : (repoReader x repo (metaFile pkg) w).1 = .ok b) (hp : x.UnmarshalText b = .ok pm)
    (hn : nextFault w = none) :
    collectMetas x pkg (repo :: rest) w =
      M.bind (collectMetas x pkg rest) (fun ms => M.pure ((pm, repo) :: ms))
        (tick { w with reads := w.reads ++ [(repo, metaFile pkg)] }) := by
  have hn1 : nextFault { w with reads := w.reads ++ [(repo, metaFile pkg)] } = none := hn
  rw [collectMetas]
  simp only [M.bind, attempt]
  rw [repoReader_eq, h]
  simp only [M.bind, readAll, hn1, hp]

theorem noFaults_next {w : World} (h : NoFaults w) : nextFault w = none := by
  unfold nextFault
  cases hf : w.faults with
  | nil => rfl
  | cons a rest =>
    have := h a (by rw [hf]; exact List.mem_cons_self _ _)
    subst this
    rfl

theorem noFaults_of_suffix {w w1 : World} (h : NoFaults w) (hs : w1.faults <:+ w.faults) :
    NoFaults w1 := fun f hf => h f (hs.subset hf)

theorem collectMetas_all_notfound (x : Ext) (pkg : String) :
    ∀ (repos : List Repo) (w w0 : World),
      (∀ r ∈ repos, ∃ e, (repoReader x r (metaFile pkg) w0).1 = .error e ∧
        isNotExist e = true) →
      collectMetas x pkg repos w =
        (.ok [], { w with reads := w.reads ++ repos.map (fun r => (r, metaFile pkg)) }) := by
  intro repos
  induction repos with
  | nil =>
    intro w w0 _
    simp [collectMetas, M.pure]
  | cons repo rest ih =>
    intro w w0 h
    obtain ⟨e, he, hne⟩ := h repo (List.mem_cons_self _ _)
    rw [collectMetas_skip x pkg repo rest w e ((repoReader_fst x repo _ w w0).trans he) hne]
    rw [ih _ w0 (fun r hr => h r (List.mem_cons_of_mem _ hr))]
    simp

theorem collectMetas_abort_at (x : Ext) (pkg : String) (repo : Repo) (post : List Repo)
    (e : Err) (w0 : World) (h : (repoReader x repo (metaFile pkg) w0).1 = .error e)
    (hne : isNotExist e = false) :
    ∀ (pre : List Repo) (w : World), NoFaults w → (∀ r ∈ pre, Passes x pkg w0 r) →
      ∃ w1, collectMetas x pkg (pre ++ repo :: post) w = (.error e, w1) ∧
        w1.reads = w.reads ++ (pre ++ [repo]).map (fun r => (r, metaFile pkg)) ∧
        w1.fs = w.fs ∧ w1.calls = w.calls ∧ w1.trace = w.trace := by
  intro pre
  induction pre with
  | nil =>
    intro w _ _
    refine ⟨_, collectMetas_abort x pkg repo post w e
      ((repoReader_fst x repo _ w w0).trans h) hne, ?_, rfl, rfl, rfl⟩
    simp
  | cons r rest ih =>
    intro w hw hpre
    rcases hpre r (List.mem_cons_self _ _) with ⟨e1, he1, hne1⟩ | ⟨b, pm, hb, hpm⟩
    · rw [List.cons_append,
        collectMetas_skip x pkg r _ w e1 ((repoReader_fst x r _ w w0).trans he1) hne1]
      obtain ⟨w1, h1, h2, h3, h4, h5⟩ := ih { w with reads := w.reads ++ [(r, metaFile pkg)] }
        hw (fun r1 hr1 => hpre r1 (List.mem_cons_of_mem _ hr1))
      refine ⟨w1, h1, ?_, h3, h4, h5⟩
      rw [h2]
      simp
    · rw [List.cons_append,
        collectMetas_parsed x pkg r _ w b pm ((repoReader_fst x r _ w w0).trans hb) hpm
          (noFaults_next hw)]
      have hw1 : NoFaults (tick { w with reads := w.reads ++ [(r, metaFile pkg)] }) :=
        fun f hf => hw f (List.mem_of_mem_tail hf)
      obtain ⟨w1, h1, h2, h3, h4, h5⟩ :=
        ih (tick { w with reads := w.reads ++ [(r, metaFile pkg)] }) hw1
          (fun r1 hr1 => hpre r1 (List.mem_cons_of_mem _ hr1))
      refine ⟨w1, ?_, ?_, h3, h4, h5⟩
      · simp only [M.bind, h1]
      · rw [h2]
        simp [tick]
/-- C7. Not-found propagation: when every repository of the list reports
not-found for `pkg/<name>.meta.textproto` (`<name>` being the requested name
with the default architecture appended where `installTransitively1` appends
it), `installTransitively1` returns the error "package <name> not found on any
configured repo"; the world it leaves differs from the initial one only in
the record of the `repoReader` calls, which lists every repository of the list
in order: the store is unchanged, `install1` was never invoked, and the
repositories after a not-found one were still queried. -/
theorem installTransitively1_not_found (x : Ext) (sched : Sched) (root : String)
    (repos : List Repo) (pkg : String) (w : World)
    (hperm : ∀ l, (sched.rangeOrder l).Perm l)
    (h : ∀ r ∈ repos, ∃ e,
      (repoReader x r ("pkg/" ++ qualify x pkg ++ ".meta.textproto") w).1 = .error e ∧
      isNotExist e = true) :
    installTransitively1 x sched root repos pkg w =
      (.error (.notOnAnyRepo (qualify x pkg)),
        { w with reads := w.reads ++
            repos.map (fun r => (r, "pkg/" ++ qualify x pkg ++ ".meta.textproto")) }) := by
  unfold installTransitively1
  simp only [M.bind]
  rw [collectMetas_all_notfound x (qualify x pkg) repos w w h]
  simp only [(hperm []).eq_nil, selectMeta, List.foldl_nil, fail]

theorem installTransitively1_not_found_witness :
    installTransitively1 demoExt ⟨id, id⟩ "/" [⟨"http://q"⟩, ⟨"http://s"⟩] "p" demoWorld =
      (.error (.notOnAnyRepo (qualify demoExt "p")),
        { demoWorld with
          reads := demoWorld.reads ++
            [(⟨"http://q"⟩, "pkg/" ++ qualify demoExt "p" ++ ".meta.textproto"),
             (⟨"http://s"⟩, "pkg/" ++ qualify demoExt "p" ++ ".meta.textproto")] }) :=
  installTransitively1_not_found demoExt ⟨id, id⟩ "/" [⟨"http://q"⟩, ⟨"http://s"⟩] "p"
    demoWorld (fun l => List.Perm.refl l) (by
      intro r hr
      simp only [List.mem_cons, List.mem_singleton, List.not_mem_nil, or_false] at hr
      rcases hr with rfl | rfl
      · exact ⟨.errNotFound, by rfl, rfl⟩
      · exact ⟨.errNotFound, by rfl, rfl⟩)

/-- C8. Artifact Source error classification.  For an HTTP(S)-backed repository
whose request is answered with a response: `repoReader` returns a stream iff
the status is 200, and then it is the response body; on status 404 it returns
an error for which `isNotExist` is true, as it does for a missing file of a
directory-backed repository; on every other status it returns an error for
which `isNotExist` is false.  In `installTransitively1`, a repository whose
`repoReader` error is of the not-found kind is skipped and the loop goes on
with the next repository; any other `repoReader` error, at whatever position
of the list (the repositories before it having been skipped or read), is
returned at once, and no later repository is consulted. -/
theorem repoReader_classification :
    (∀ (x : Ext) (repo : Repo) (fn : String) (w : World) (resp : HttpResponse),
      (stringsHasPrefix repo.Path "http://" || stringsHasPrefix repo.Path "https://") = true →
      x.httpDo (repo.Path ++ "/" ++ fn) = .ok resp →
      ((∃ body, (repoReader x repo fn w).1 = .ok body) ↔ resp.StatusCode = 200) ∧
      (resp.StatusCode = 200 → (repoReader x repo fn w).1 = .ok resp.Body) ∧
      (resp.StatusCode = 404 →
        ∃ e, (repoReader x repo fn w).1 = .error e ∧ isNotExist e = true) ∧
      (resp.StatusCode ≠ 200 → resp.StatusCode ≠ 404 →
        ∃ e, (repoReader x repo fn w).1 = .error e ∧ isNotExist e = false)) ∧
    (∀ (x : Ext) (repo : Repo) (fn : String) (w : World),
      (stringsHasPrefix repo.Path "http://" || stringsHasPrefix repo.Path "https://") = false →
      x.osOpen (repo.Path ++ "/" ++ fn) = .error .enoent →
      ∃ e, (repoReader x repo fn w).1 = .error e ∧ isNotExist e = true) ∧
    (∀ (x : Ext) (sched : Sched) (root : String) (pre : List Repo) (repo : Repo)
      (post : List Repo) (pkg : String) (w : World) (e : Err),
      NoFaults w → (∀ r ∈ pre, Passes x (qualify x pkg) w r) →
      (repoReader x repo ("pkg/" ++ qualify x pkg ++ ".meta.textproto") w).1 = .error e →
      isNotExist e = false →
      ∃ w1, installTransitively1 x sched root (pre ++ repo :: post) pkg w = (.error e, w1) ∧
        w1.reads = w.reads ++ (pre ++ [repo]).map
          (fun r => (r, "pkg/" ++ qualify x pkg ++ ".meta.textproto")) ∧
        w1.fs = w.fs ∧ w1.calls = w.calls) ∧
    (∀ (x : Ext) (sched : Sched) (root : String) (repo : Repo) (rest : List Repo)
      (pkg : String) (w : World) (e : Err),
      (repoReader x repo ("pkg/" ++ qualify x pkg ++ ".meta.textproto") w).1 = .error e →
      isNotExist e = true →
      installTransitively1 x sched root (repo :: rest) pkg w =
        installTransitively1 x sched root rest pkg
          { w with reads := w.reads ++
              [(repo, "pkg/" ++ qualify x pkg ++ ".meta.textproto")] }) := by
  refine ⟨?_, ?_, ?_, ?_⟩
  · intro x repo fn w resp hhttp hresp
    have h200 : resp.StatusCode = 200 → (repoReader x repo fn w).1 = .ok resp.Body := by
      intro hs
      unfold repoReader
      simp only [hhttp, if_true, hresp, hs, ne_eq, not_true_eq_false, if_false]
    have h404 : resp.StatusCode = 404 →
        ∃ e, (repoReader x repo fn w).1 = .error e ∧ isNotExist e = true := by
      intro hs
      refine ⟨.errNotFound, ?_, rfl⟩
      unfold repoReader
      simp [hhttp, hresp, hs]
    have hother : resp.StatusCode ≠ 200 → resp.StatusCode ≠ 404 →
        ∃ e, (repoReader x repo fn w).1 = .error e ∧ isNotExist e = false := by
      intro hs1 hs2
      refine ⟨.httpStatus resp.Status, ?_, rfl⟩
      unfold repoReader
      simp [hhttp, hresp, hs1, hs2]
    refine ⟨⟨?_, fun hs => ⟨_, h200 hs⟩⟩, h200, h404, hother⟩
    rintro ⟨body, hb⟩
    by_contra hs
    by_cases hs2 : resp.StatusCode = 404
    · obtain ⟨e, he, _⟩ := h404 hs2
      rw [he] at hb
      cases hb
    · obtain ⟨e, he, _⟩ := hother hs hs2
      rw [he] at hb
      cases hb
  · intro x repo fn w hhttp hopen
    refine ⟨.enoent, ?_, rfl⟩
    unfold repoReader
    simp [hhttp, hopen]
  · intro x sched root pre repo post pkg w e hw hpre he hne
    obtain ⟨w1, h1, h2, h3, h4, _⟩ :=
      collectMetas_abort_at x (qualify x pkg) repo post e w he hne pre w hw hpre
    refine ⟨w1, ?_, h2, h3, h4⟩
    unfold installTransitively1
    simp only [M.bind, h1]
  · intro x sched root repo rest pkg w e he hne
    unfold installTransitively1
    simp only [M.bind]
    rw [collectMetas_skip x (qualify x pkg) repo rest w e he hne]
theorem repoReader_classification_witness :
    (((∃ body, (repoReader demoExt demoRepo "pkg/p.squashfs" demoWorld).1 = .ok body) ↔
        (⟨200, "200 OK", "http://r/pkg/p.squashfs"⟩ : HttpResponse).StatusCode = 200) ∧
      ((⟨200, "200 OK", "http://r/pkg/p.squashfs"⟩ : HttpResponse).StatusCode = 200 →
        (repoReader demoExt demoRepo "pkg/p.squashfs" demoWorld).1 =
          .ok (⟨200, "200 OK", "http://r/pkg/p.squashfs"⟩ : HttpResponse).Body) ∧
      ((⟨200, "200 OK", "http://r/pkg/p.squashfs"⟩ : HttpResponse).StatusCode = 404 →
        ∃ e, (repoReader demoExt demoRepo "pkg/p.squashfs" demoWorld).1 = .error e ∧
          isNotExist e = true) ∧
      ((⟨200, "200 OK", "http://r/pkg/p.squashfs"⟩ : HttpResponse).StatusCode ≠ 200 →
        (⟨200, "200 OK", "http://r/pkg/p.squashfs"⟩ : HttpResponse).StatusCode ≠ 404 →
        ∃ e, (repoReader demoExt demoRepo "pkg/p.squashfs" demoWorld).1 = .error e ∧
          isNotExist e = false)) ∧
    (∃ e, (repoReader demoExt ⟨"/srv/repo"⟩ "pkg/p.squashfs" demoWorld).1 = .error e ∧
      isNotExist e = true) ∧
    (∃ w1, installTransitively1 brokenExt ⟨id, id⟩ "/"
        ([(⟨"http://q"⟩ : Repo)] ++ (⟨"http://bad"⟩ : Repo) :: [demoRepo]) "p" demoWorld =
          (.error (.httpStatus "500 Internal Server Error"), w1) ∧
      w1.reads = demoWorld.reads ++ ([(⟨"http://q"⟩ : Repo)] ++ [(⟨"http://bad"⟩ : Repo)]).map
        (fun r => (r, "pkg/" ++ qualify brokenExt "p" ++ ".meta.textproto")) ∧
      w1.fs = demoWorld.fs ∧ w1.calls = demoWorld.calls) ∧
    (installTransitively1 demoExt ⟨id, id⟩ "/" ((⟨"http://q"⟩ : Repo) :: [demoRepo]) "p" demoWorld =
      installTransitively1 demoExt ⟨id, id⟩ "/" [demoRepo] "p"
        { demoWorld with
          reads := demoWorld.reads ++
            [(⟨"http://q"⟩, "pkg/" ++ qualify demoExt "p" ++ ".meta.textproto")] }) :=
  ⟨repoReader_classification.1 demoExt demoRepo "pkg/p.squashfs" demoWorld
      ⟨200, "200 OK", "http://r/pkg/p.squashfs"⟩ (by rfl) (by rfl),
    repoReader_classification.2.1 demoExt ⟨"/srv/repo"⟩ "pkg/p.squashfs" demoWorld
      (by rfl) (by rfl),
    repoReader_classification.2.2.1 brokenExt ⟨id, id⟩ "/" [⟨"http://q"⟩] ⟨"http://bad"⟩
      [demoRepo] "p" demoWorld (.httpStatus "500 Internal Server Error")
      (fun f hf => by cases hf)
      (fun r hr => by
        simp only [List.mem_singleton] at hr
        subst hr
        exact Or.inl ⟨.errNotFound, by rfl, rfl⟩)
      (by rfl) (by rfl),
    repoReader_classification.2.2.2 demoExt ⟨id, id⟩ "/" ⟨"http://q"⟩ [demoRepo] "p"
      demoWorld .errNotFound (by rfl) (by rfl)⟩
/-! ## Packages do not share files -/

theorem stagingDir_inj (x : Ext) (root : String) {n m : String}
    (h : stagingDir x root n = stagingDir x root m) : n = m := by
  simp only [stagingDir, List.cons.injEq, true_and, and_true] at h
  exact str_append_left_cancel (str_append_right_cancel h)

theorem not_footprint_img (x : Ext) (root : String) {n m : String} (h : n ≠ m) :
    ¬ footprint x root m (imgPath root n) := by
  have h1 : n ++ ".squashfs" ≠ m ++ ".squashfs" := fun e => h (str_append_right_cancel e)
  simp [footprint, preCommit, inEtc, inStaging, imgPath, metaPath, stagedImg, stagedMeta,
    stagingDir, h1, img_ne_meta]

theorem not_footprint_meta (x : Ext) (root : String) {n m : String} (h : n ≠ m) :
    ¬ footprint x root m (metaPath root n) := by
  have h1 : n ++ ".meta.textproto" ≠ m ++ ".meta.textproto" :=
    fun e => h (str_append_right_cancel e)
  have h2 : n ++ ".meta.textproto" ≠ m ++ ".squashfs" := fun e => img_ne_meta m n e.symm
  simp [footprint, preCommit, inEtc, inStaging, imgPath, metaPath, stagedImg, stagedMeta,
    stagingDir, h1, h2]

theorem not_footprint_staging (x : Ext) (root : String) {n m : String} (h : n ≠ m)
    (p : Path) (hp : inStaging x root n p) : ¬ footprint x root m p := by
  have h0 : stagingDir x root n ≠ stagingDir x root m := fun e => h (stagingDir_inj x root e)
  have h1 : "." ++ n ++ toString x.Getpid ≠ "." ++ m ++ toString x.Getpid := by
    intro e
    apply h0
    simp [stagingDir, e]
  rcases hp with hp | hp | hp <;> subst hp <;>
    simp [footprint, preCommit, inEtc, inStaging, imgPath, metaPath, stagedImg, stagedMeta,
      stagingDir, h1]
/-! ## The tasks of `installTransitively1` -/

theorem installTask_eq (x : Ext) (root : String) (repo : Repo) (first : Bool) (pkg : String)
    (w : World) :
    installTask x root repo first pkg w =
      (match (install1 x root repo pkg first w).1 with
        | .error e => .error (.installing pkg e)
        | .ok _ => .ok (),
       (install1 x root repo pkg first w).2) := by
  unfold installTask
  simp only [M.bind, attempt]
  rcases install1 x root repo pkg first w with ⟨r, w1⟩
  cases r <;> rfl

theorem installTask_ok (x : Ext) (root : String) (repo : Repo) (first : Bool) (pkg : String)
    (w : World) (h : (installTask x root repo first pkg w).1 = .ok ()) :
    (install1 x root repo pkg first w).1 = .ok () := by
  rw [installTask_eq] at h
  simp only at h
  cases hr : (install1 x root repo pkg first w).1 with
  | error e => rw [hr] at h; cases h
  | ok a => rfl

theorem errgroup_cons (t : M Unit) (ts : List (M Unit)) (w : World) :
    (errgroup (t :: ts) w).2 = (errgroup ts (t w).2).2 ∧
    ((errgroup (t :: ts) w).1 = .ok () →
      (t w).1 = .ok () ∧ (errgroup ts (t w).2).1 = .ok ()) := by
  have h : errgroup (t :: ts) w =
      (match (t w).1 with
        | .error e => .error e
        | .ok _ => (errgroup ts (t w).2).1, (errgroup ts (t w).2).2) := by
    rw [errgroup]
    beta_reduce
    rcases t w with ⟨r, w1⟩
    cases r <;> rfl
  rw [h]
  refine ⟨rfl, fun h1 => ?_⟩
  simp only at h1
  cases hr : (t w).1 with
  | error e => rw [hr] at h1; cases h1
  | ok a => rw [hr] at h1; exact ⟨rfl, h1⟩

theorem errgroup_calls (x : Ext) (root : String) (repo : Repo) (first : Bool) :
    ∀ (l : List String) (w : World),
      (errgroup (l.map (installTask x root repo first)) w).2.calls =
        w.calls ++ l.map (fun n => ⟨root, repo, n, first⟩) := by
  intro l
  induction l with
  | nil =>
    intro w
    simp [errgroup, M.pure]
  | cons n rest ih =>
    intro w
    rw [List.map_cons, (errgroup_cons _ _ w).1, ih, installTask_eq]
    simp only
    rw [(install1_run x root repo n first w).1.2.1]
    simp

theorem collectMetas_frame (x : Ext) (pkg : String) :
    ∀ (repos : List Repo) (w : World),
      (collectMetas x pkg repos w).2.fs = w.fs ∧
      (collectMetas x pkg repos w).2.calls = w.calls ∧
      (collectMetas x pkg repos w).2.trace = w.trace ∧
      (collectMetas x pkg repos w).2.faults <:+ w.faults := by
  intro repos
  induction repos with
  | nil =>
    intro w
    simp [collectMetas, M.pure]
  | cons repo rest ih =>
    intro w
    rw [collectMetas]
    simp only [M.bind, attempt]
    rw [repoReader_eq]
    cases (repoReader x repo ("pkg/" ++ pkg ++ ".meta.textproto") w).1 with
    | error e =>
      simp only
      by_cases hne : isNotExist e = true
      · simp only [hne, if_true]
        exact ih _
      · simp only [hne, fail]
        exact ⟨rfl, rfl, rfl, List.suffix_refl _⟩
    | ok b =>
      simp only [M.bind, readAll]
      cases hn : nextFault { w with reads := w.reads ++ [(repo, "pkg/" ++ pkg ++ ".meta.textproto")] } with
      | some f =>
        exact ⟨rfl, rfl, rfl, List.tail_suffix _⟩
      | none =>
        simp only
        cases x.UnmarshalText b with
        | error e => exact ⟨rfl, rfl, rfl, List.tail_suffix _⟩
        | ok pm =>
          simp only [M.bind]
          have h := ih (tick { w with reads := w.reads ++ [(repo, "pkg/" ++ pkg ++ ".meta.textproto")] })
          rcases hcm : collectMetas x pkg rest
            (tick { w with reads := w.reads ++ [(repo, "pkg/" ++ pkg ++ ".meta.textproto")] })
            with ⟨r, w1⟩
          rw [hcm] at h
          cases r with
          | error e => exact ⟨h.1, h.2.1, h.2.2.1, h.2.2.2.trans (List.tail_suffix _)⟩
          | ok ms => exact ⟨h.1, h.2.1, h.2.2.1, h.2.2.2.trans (List.tail_suffix _)⟩
theorem collectMetas_ok_spec (x : Ext) (pkg : String) (w0 : World) :
    ∀ (repos : List Repo) (w : World) (metas : List (Meta × Repo)) (w1 : World),
      collectMetas x pkg repos w = (.ok metas, w1) →
      w1.reads = w.reads ++ repos.map (fun r => (r, metaFile pkg)) ∧
      ∀ mr ∈ metas, mr.2 ∈ repos ∧
        ∃ b, (repoReader x mr.2 (metaFile pkg) w0).1 = .ok b ∧ x.UnmarshalText b = .ok mr.1 := by
  intro repos
  induction repos with
  | nil =>
    intro w metas w1 h
    simp only [collectMetas, M.pure, Prod.mk.injEq, Except.ok.injEq] at h
    obtain ⟨h1, h2⟩ := h
    subst h1
    subst h2
    exact ⟨by simp, fun _ hm => by cases hm⟩
  | cons repo rest ih =>
    intro w metas w1 h
    cases hr : (repoReader x repo (metaFile pkg) w).1 with
    | error e =>
      by_cases hne : isNotExist e = true
      · rw [collectMetas_skip x pkg repo rest w e hr hne] at h
        obtain ⟨h1, h2⟩ := ih _ _ _ h
        refine ⟨?_, fun mr hm => ⟨List.mem_cons_of_mem _ (h2 mr hm).1, (h2 mr hm).2⟩⟩
        rw [h1]
        simp
      · rw [collectMetas_abort x pkg repo rest w e hr (by simpa using hne)] at h
        cases h
    | ok b =>
      cases hn : nextFault w with
      | some f =>
        rw [collectMetas] at h
        simp only [M.bind, attempt] at h
        rw [repoReader_eq, hr] at h
        have hn1 : nextFault { w with reads := w.reads ++ [(repo, metaFile pkg)] } = some f := hn
        simp only [M.bind, readAll, hn1] at h
        cases h
      | none =>
        cases hp : x.UnmarshalText b with
        | error e =>
          rw [collectMetas] at h
          simp only [M.bind, attempt] at h
          rw [repoReader_eq, hr] at h
          have hn1 : nextFault { w with reads := w.reads ++ [(repo, metaFile pkg)] } = none := hn
          simp only [M.bind, readAll, hn1, hp, fail] at h
          cases h
        | ok pm =>
          rw [collectMetas_parsed x pkg repo rest w b pm hr hp hn] at h
          simp only [M.bind] at h
          rcases hcm : collectMetas x pkg rest
            (tick { w with reads := w.reads ++ [(repo, metaFile pkg)] }) with ⟨r, w2⟩
          rw [hcm] at h
          cases r with
          | error e => cases h
          | ok ms =>
            simp only [M.pure, Prod.mk.injEq, Except.ok.injEq] at h
            obtain ⟨h1, h2⟩ := h
            subst h1
            subst h2
            obtain ⟨h3, h4⟩ := ih _ _ _ hcm
            refine ⟨?_, fun mr hm => ?_⟩
            · rw [h3]
              simp [tick]
            · rcases List.mem_cons.mp hm with hm | hm
              · subst hm
                exact ⟨List.mem_cons_self _ _, b, (repoReader_fst x repo _ w0 w).trans hr, hp⟩
              · exact ⟨List.mem_cons_of_mem _ (h4 mr hm).1, (h4 mr hm).2⟩

theorem qualify_eq (x : Ext) (pkg : String) :
    qualify x pkg =
      if x.hasArchSuffix pkg = false ∧ x.likelyFullySpecified pkg = false then pkg ++ "-amd64"
      else pkg := by
  unfold qualify
  cases x.hasArchSuffix pkg <;> cases x.likelyFullySpecified pkg <;> simp

/-- C9. Dependency expansion in `installTransitively1`: let `p1` be the
requested reference `pkg` with `-amd64` appended when `pkg` has no architecture
suffix and is not likely fully specified (else `pkg` itself).  When the
resolution loop over the repositories succeeds and the selection picks the
document `pm` of repository `repo`, then every repository was asked for the
metadata under the name `p1`, `pm` is the parsed document that `repo` delivers
under that name, and the invocations of `install1` are exactly those for the
list `q :: pm.RuntimeDep` (in the order the scheduler runs them), each with the
winning repository and `first = true`, where `q` is `p1 ++ "-" ++ pm.Version`
when `p1` has an architecture suffix and `p1` otherwise: nothing is added from
the metadata of the dependencies. -/
theorem installTransitively1_dispatch (x : Ext) (sched : Sched) (root : String)
    (repos : List Repo) (pkg : String) (w w1 : World) (metas : List (Meta × Repo))
    (pm : Meta) (repo : Repo) (p1 q : String)
    (hp1 : p1 = if x.hasArchSuffix pkg = false ∧ x.likelyFullySpecified pkg = false
      then pkg ++ "-amd64" else pkg)
    (hq : q = if x.hasArchSuffix p1 = true then p1 ++ "-" ++ pm.Version else p1)
    (hperm : ∀ l, (sched.rangeOrder l).Perm l)
    (hc : collectMetas x p1 repos w = (.ok metas, w1))
    (hs : selectMeta (sched.rangeOrder metas) = some (pm, repo)) :
    (installTransitively1 x sched root repos pkg w).2.calls =
      w.calls ++ (sched.goOrder (q :: pm.RuntimeDep)).map
        (fun n => (⟨root, repo, n, true⟩ : Call)) ∧
    w1.reads = w.reads ++ repos.map (fun r => (r, "pkg/" ++ p1 ++ ".meta.textproto")) ∧
    repo ∈ repos ∧
    ∃ b, (repoReader x repo ("pkg/" ++ p1 ++ ".meta.textproto") w).1 = .ok b ∧
      x.UnmarshalText b = .ok pm := by
  have hp1' : qualify x pkg = p1 := by rw [hp1, qualify_eq]
  have hq' : fullName x p1 pm = q := by rw [hq]; rfl
  obtain ⟨h1, h2⟩ := collectMetas_ok_spec x p1 w repos w metas w1 hc
  have hne : sched.rangeOrder metas ≠ [] := by
    intro h0
    rw [h0] at hs
    cases hs
  obtain ⟨sel, hsel, hmem, _⟩ := selectMeta_spec _ hne
  rw [hs] at hsel
  cases hsel
  have hmem' := h2 _ ((hperm metas).mem_iff.mp hmem)
  refine ⟨?_, h1, hmem'.1, hmem'.2⟩
  unfold installTransitively1
  simp only [M.bind, hp1', hc, hs, hq']
  rw [errgroup_calls]
  have := (collectMetas_frame x p1 repos w).2.1
  rw [hc] at this
  rw [this]

theorem demo_collect :
    collectMetas demoExt "p-amd64" [⟨"http://q"⟩, demoRepo] demoWorld =
      (.ok [(⟨"1.0", ["a-amd64-1", "b-amd64-1"]⟩, demoRepo)],
        tick { demoWorld with
          reads := [(⟨"http://q"⟩, "pkg/p-amd64.meta.textproto"),
            (demoRepo, "pkg/p-amd64.meta.textproto")] }) := by
  rw [collectMetas_skip demoExt "p-amd64" ⟨"http://q"⟩ _ demoWorld .errNotFound (by rfl) (by rfl)]
  rw [collectMetas_parsed demoExt "p-amd64" demoRepo [] _ "M1"
    ⟨"1.0", ["a-amd64-1", "b-amd64-1"]⟩ (by rfl) (by rfl) (by rfl)]
  rfl

theorem installTransitively1_dispatch_witness :
    (installTransitively1 demoExt ⟨id, id⟩ "/" [⟨"http://q"⟩, demoRepo] "p" demoWorld).2.calls =
      demoWorld.calls ++ (id ("p-amd64-1.0" :: (⟨"1.0", ["a-amd64-1", "b-amd64-1"]⟩ : Meta).RuntimeDep)).map
        (fun n => (⟨"/", demoRepo, n, true⟩ : Call)) ∧
    (tick { demoWorld with
        reads := [(⟨"http://q"⟩, "pkg/p-amd64.meta.textproto"),
          (demoRepo, "pkg/p-amd64.meta.textproto")] }).reads =
      demoWorld.reads ++ [(⟨"http://q"⟩ : Repo), demoRepo].map
        (fun r => (r, "pkg/" ++ "p-amd64" ++ ".meta.textproto")) ∧
    demoRepo ∈ [(⟨"http://q"⟩ : Repo), demoRepo] ∧
    ∃ b, (repoReader demoExt demoRepo ("pkg/" ++ "p-amd64" ++ ".meta.textproto") demoWorld).1
        = .ok b ∧
      demoExt.UnmarshalText b = .ok ⟨"1.0", ["a-amd64-1", "b-amd64-1"]⟩ :=
  installTransitively1_dispatch demoExt ⟨id, id⟩ "/" [⟨"http://q"⟩, demoRepo] "p" demoWorld _
    _ ⟨"1.0", ["a-amd64-1", "b-amd64-1"]⟩ demoRepo "p-amd64" "p-amd64-1.0"
    (by decide) (by decide) (fun l => List.Perm.refl l) demo_collect (by rfl)
theorem install1_step (x : Ext) (root : String) (repo : Repo) (first : Bool) (w0 v : World)
    (m : String) (hv : NoFaults v)
    (hok : (install1 x root repo m first v).1 = .ok ()) :
    NoFaults (install1 x root repo m first v).2 ∧
    ((Fresh x root m v.fs ∨ Installed x repo root w0 m v.fs) →
      Installed x repo root w0 m (install1 x root repo m first v).2.fs) ∧
    (∀ n, n ≠ m →
      (Fresh x root n v.fs → Fresh x root n (install1 x root repo m first v).2.fs) ∧
      (Installed x repo root w0 n v.fs →
        Installed x repo root w0 n (install1 x root repo m first v).2.fs)) := by
  obtain ⟨h1, _, h3⟩ := install1_run x root repo m first v
  refine ⟨noFaults_of_suffix hv h3, ?_, ?_⟩
  · intro hst
    rcases hst with hf | hi
    · have h := h1.2.2 hok hf.1 (hf.2 _ (Or.inl rfl)) (noFaults_next hv)
      unfold Installed
      rw [repoReader_fst x repo _ w0 v, repoReader_fst x repo _ w0 v]
      exact h
    · have hpres : v.fs.lookup [root, "roimg", m ++ ".squashfs"] ≠ none := by
        obtain ⟨⟨cI, _, _, _, hi1, _⟩, _⟩ := hi
        rw [hi1]
        exact Option.some_ne_none _
      rw [install1_noop x root repo m first v hpres]
      exact hi
  · intro n hn
    have hag : Agree (footprint x root m) v.fs (install1 x root repo m first v).2.fs :=
      h1.1.1
    have hst : ∀ p, inStaging x root n p →
        (install1 x root repo m first v).2.fs.lookup p = v.fs.lookup p :=
      fun p hp => hag p (not_footprint_staging x root hn p hp)
    constructor
    · intro hf
      refine ⟨?_, fun p hp => (hst p hp).trans (hf.2 p hp)⟩
      rw [hag _ (not_footprint_img x root hn)]
      exact hf.1
    · intro hi
      obtain ⟨⟨cI, cM, hrI, hrM, hi1, hi2⟩, hi3⟩ := hi
      refine ⟨⟨cI, cM, hrI, hrM, ?_, ?_⟩, fun p hp => (hst p hp).trans (hi3 p hp)⟩
      · rw [hag _ (not_footprint_img x root hn)]
        exact hi1
      · rw [hag _ (not_footprint_meta x root hn)]
        exact hi2

theorem errgroup_installs (x : Ext) (root : String) (repo : Repo) (first : Bool)
    (w0 : World) :
    ∀ (l : List String) (v : World), NoFaults v →
      (errgroup (l.map (installTask x root repo first)) v).1 = .ok () →
      ∀ n, (Fresh x root n v.fs ∨ Installed x repo root w0 n v.fs) →
        (Fresh x root n (errgroup (l.map (installTask x root repo first)) v).2.fs ∨
          Installed x repo root w0 n
            (errgroup (l.map (installTask x root repo first)) v).2.fs) ∧
        (Installed x repo root w0 n v.fs →
          Installed x repo root w0 n
            (errgroup (l.map (installTask x root repo first)) v).2.fs) ∧
        (n ∈ l →
          Installed x repo root w0 n
            (errgroup (l.map (installTask x root repo first)) v).2.fs) := by
  intro l
  induction l with
  | nil =>
    intro v _ _ n hst
    simp only [List.map_nil, errgroup, M.pure]
    exact ⟨hst, fun h => h, fun h => by cases h⟩
  | cons m rest ih =>
    intro v hv hok n hst
    rw [List.map_cons] at hok ⊢
    obtain ⟨hw, hoks⟩ := errgroup_cons (installTask x root repo first m)
      (rest.map (installTask x root repo first)) v
    obtain ⟨hok1, hok2⟩ := hoks hok
    have hi1 := installTask_ok x root repo first m v hok1
    have hv1eq : (installTask x root repo first m v).2 = (install1 x root repo m first v).2 := by
      rw [installTask_eq]
    rw [hw]
    rw [hv1eq] at hok2 ⊢
    obtain ⟨hnf, hself, hother⟩ := install1_step x root repo first w0 v m hv hi1
    by_cases hnm : n = m
    · subst hnm
      have hdone := hself hst
      obtain ⟨_, k2, _⟩ := ih _ hnf hok2 n (Or.inr hdone)
      exact ⟨Or.inr (k2 hdone), fun _ => k2 hdone, fun _ => k2 hdone⟩
    · have hst1 : Fresh x root n (install1 x root repo m first v).2.fs ∨
          Installed x repo root w0 n (install1 x root repo m first v).2.fs :=
        hst.imp (hother n hnm).1 (hother n hnm).2
      obtain ⟨k1, k2, k3⟩ := ih _ hnf hok2 n hst1
      refine ⟨k1, fun h => k2 ((hother n hnm).2 h), fun h => ?_⟩
      rcases List.mem_cons.mp h with h | h
      · exact absurd h hnm
      · exact k3 h

/-- C4. Dependency completeness: when the resolution of `pkg` succeeds and
selects the document `pm` of repository `repo`, let `q` be the fully-qualified
package name.  If at the start none of `q` and the runtime dependencies of `pm`
(for instance `a` and `b`) is installed, the staging area below
`<root>/roimg/tmp` is empty, the environment injects no fault and
`installTransitively1` returns success, then for each of these names `n` the
final store holds `<root>/roimg/<n>.squashfs` and
`<root>/roimg/<n>.meta.textproto` with exactly what the winning repository
delivers for them, and neither the staging directory of `n` nor a file in it
remains.  This holds for every order in which the scheduler runs the
`install1` tasks. -/
theorem installTransitively1_installs_all (x : Ext) (sched : Sched) (root : String)
    (repos : List Repo) (pkg : String) (w w1 : World) (metas : List (Meta × Repo))
    (pm : Meta) (repo : Repo)
    (hgo : ∀ l, (sched.goOrder l).Perm l)
    (hc : collectMetas x (qualify x pkg) repos w = (.ok metas, w1))
    (hs : selectMeta (sched.rangeOrder metas) = some (pm, repo))
    (hfaults : NoFaults w)
    (hfresh : ∀ n ∈ fullName x (qualify x pkg) pm :: pm.RuntimeDep,
      w.fs.lookup [root, "roimg", n ++ ".squashfs"] = none)
    (hstage : ∀ c t, w.fs.lookup (root :: "roimg" :: "tmp" :: c :: t) = none)
    (hok : (installTransitively1 x sched root repos pkg w).1 = .ok ()) :
    ∀ n ∈ fullName x (qualify x pkg) pm :: pm.RuntimeDep,
      ∃ cI cM,
        (repoReader x repo ("pkg/" ++ (n ++ ".squashfs")) w).1 = .ok cI ∧
        (repoReader x repo ("pkg/" ++ (n ++ ".meta.textproto")) w).1 = .ok cM ∧
        (installTransitively1 x sched root repos pkg w).2.fs.lookup
          [root, "roimg", n ++ ".squashfs"] = some (.file cI) ∧
        (installTransitively1 x sched root repos pkg w).2.fs.lookup
          [root, "roimg", n ++ ".meta.textproto"] = some (.file cM) ∧
        (installTransitively1 x sched root repos pkg w).2.fs.lookup
          (stagingDir x root n) = none ∧
        (installTransitively1 x sched root repos pkg w).2.fs.lookup
          (stagingDir x root n ++ [n ++ ".squashfs"]) = none ∧
        (installTransitively1 x sched root repos pkg w).2.fs.lookup
          (stagingDir x root n ++ [n ++ ".meta.textproto"]) = none := by
  have hfr := collectMetas_frame x (qualify x pkg) repos w
  rw [hc] at hfr
  have hrun : installTransitively1 x sched root repos pkg w =
      errgroup ((sched.goOrder (fullName x (qualify x pkg) pm :: pm.RuntimeDep)).map
        (installTask x root repo true)) w1 := by
    unfold installTransitively1
    simp only [M.bind, hc, hs]
  rw [hrun] at hok ⊢
  have hnf1 : NoFaults w1 := noFaults_of_suffix hfaults hfr.2.2.2
  intro n hn
  have hfreshn : Fresh x root n w1.fs := by
    rw [hfr.1]
    refine ⟨hfresh n hn, fun p hp => ?_⟩
    rcases hp with hp | hp | hp <;> subst hp <;> exact hstage _ _
  obtain ⟨_, _, k3⟩ := errgroup_installs x root repo true w _ w1 hnf1 hok n (Or.inl hfreshn)
  obtain ⟨⟨cI, cM, hrI, hrM, hi, hm⟩, hst⟩ := k3 ((hgo _).mem_iff.mpr hn)
  exact ⟨cI, cM, hrI, hrM, hi, hm, hst _ (Or.inl rfl), hst _ (Or.inr (Or.inl rfl)),
    hst _ (Or.inr (Or.inr rfl))⟩
theorem plain_collect :
    collectMetas plainExt (qualify plainExt "p") [⟨"http://q"⟩, demoRepo] demoWorld =
      (.ok [(⟨"1.0", ["a-amd64-1", "b-amd64-1"]⟩, demoRepo)],
        tick { demoWorld with
          reads := [(⟨"http://q"⟩, "pkg/p-amd64.meta.textproto"),
            (demoRepo, "pkg/p-amd64.meta.textproto")] }) := by
  have hq : qualify plainExt "p" = "p-amd64" := by decide
  rw [hq]
  rw [collectMetas_skip plainExt "p-amd64" ⟨"http://q"⟩ _ demoWorld .errNotFound (by rfl) (by rfl)]
  rw [collectMetas_parsed plainExt "p-amd64" demoRepo [] _ "M1"
    ⟨"1.0", ["a-amd64-1", "b-amd64-1"]⟩ (by rfl) (by rfl) (by rfl)]
  rfl

set_option synthInstance.maxHeartbeats 400000 in
set_option maxHeartbeats 1000000 in
theorem plain_install_b (v : World) (hf : v.faults = [])
    (hfs : v.fs =
      ⟨[(["/"], .dir), (["/", "roimg"], .dir), (["/", "roimg", "tmp"], .dir)]⟩) :
    (install1 plainExt "/" demoRepo "b-amd64-1" true v).1 = .ok () ∧
    (install1 plainExt "/" demoRepo "b-amd64-1" true v).2.faults = [] ∧
    (install1 plainExt "/" demoRepo "b-amd64-1" true v).2.fs =
      ⟨[(["/", "roimg", "b-amd64-1.squashfs"], .file "http://r/pkg/b-amd64-1.squashfs"),
        (["/", "roimg", "b-amd64-1.meta.textproto"], .file "http://r/pkg/b-amd64-1.meta.textproto"),
        (["/"], .dir), (["/", "roimg"], .dir), (["/", "roimg", "tmp"], .dir)]⟩ := by
  obtain ⟨fs, faults, tb, reads, calls, trace⟩ := v
  simp only at hf hfs
  subst hf
  subst hfs
  simp [install1, plainExt, demoExt, demoRepo, osStat, FS.lookup, stagingDir,
    M.bind, M.pure, fail, attempt, sys, nextFault, tick, osMkdir, FS.parentIsDir, FS.set,
    forEach, fetchInto, osCreate, repoReader, stringsHasPrefix, ioCopy, addTotalBytes,
    osClose, commitFile, osRename, FS.erase, osRemove, FS.hasChild, copyEtc, mmapOpen,
    findEtc, List.isPrefixOf]

set_option synthInstance.maxHeartbeats 400000 in
set_option maxHeartbeats 1000000 in
theorem plain_install_a (v : World) (hf : v.faults = [])
    (hfs : v.fs =
      ⟨[(["/", "roimg", "b-amd64-1.squashfs"], .file "http://r/pkg/b-amd64-1.squashfs"),
        (["/", "roimg", "b-amd64-1.meta.textproto"], .file "http://r/pkg/b-amd64-1.meta.textproto"),
        (["/"], .dir), (["/", "roimg"], .dir), (["/", "roimg", "tmp"], .dir)]⟩) :
    (install1 plainExt "/" demoRepo "a-amd64-1" true v).1 = .ok () ∧
    (install1 plainExt "/" demoRepo "a-amd64-1" true v).2.faults = [] ∧
    (install1 plainExt "/" demoRepo "a-amd64-1" true v).2.fs =
      ⟨[(["/", "roimg", "a-amd64-1.squashfs"], .file "http://r/pkg/a-amd64-1.squashfs"),
        (["/", "roimg", "a-amd64-1.meta.textproto"], .file "http://r/pkg/a-amd64-1.meta.textproto"),
        (["/", "roimg", "b-amd64-1.squashfs"], .file "http://r/pkg/b-amd64-1.squashfs"),
        (["/", "roimg", "b-amd64-1.meta.textproto"], .file "http://r/pkg/b-amd64-1.meta.textproto"),
        (["/"], .dir), (["/", "roimg"], .dir), (["/", "roimg", "tmp"], .dir)]⟩ := by
  obtain ⟨fs, faults, tb, reads, calls, trace⟩ := v
  simp only at hf hfs
  subst hf
  subst hfs
  simp [install1, plainExt, demoExt, demoRepo, osStat, FS.lookup, stagingDir,
    M.bind, M.pure, fail, attempt, sys, nextFault, tick, osMkdir, FS.parentIsDir, FS.set,
    forEach, fetchInto, osCreate, repoReader, stringsHasPrefix, ioCopy, addTotalBytes,
    osClose, commitFile, osRename, FS.erase, osRemove, FS.hasChild, copyEtc, mmapOpen,
    findEtc, List.isPrefixOf]

set_option synthInstance.maxHeartbeats 400000 in
set_option maxHeartbeats 1000000 in
theorem plain_install_p (v : World) (hf : v.faults = [])
    (hfs : v.fs =
      ⟨[(["/", "roimg", "a-amd64-1.squashfs"], .file "http://r/pkg/a-amd64-1.squashfs"),
        (["/", "roimg", "a-amd64-1.meta.textproto"], .file "http://r/pkg/a-amd64-1.meta.textproto"),
        (["/", "roimg", "b-amd64-1.squashfs"], .file "http://r/pkg/b-amd64-1.squashfs"),
        (["/", "roimg", "b-amd64-1.meta.textproto"], .file "http://r/pkg/b-amd64-1.meta.textproto"),
        (["/"], .dir), (["/", "roimg"], .dir), (["/", "roimg", "tmp"], .dir)]⟩) :
    (install1 plainExt "/" demoRepo "p-amd64-1.0" true v).1 = .ok () ∧
    (install1 plainExt "/" demoRepo "p-amd64-1.0" true v).2.faults = [] ∧
    (install1 plainExt "/" demoRepo "p-amd64-1.0" true v).2.fs =
      ⟨[(["/", "roimg", "p-amd64-1.0.squashfs"], .file "http://r/pkg/p-amd64-1.0.squashfs"),
        (["/", "roimg", "p-amd64-1.0.meta.textproto"], .file "http://r/pkg/p-amd64-1.0.meta.textproto"),
        (["/", "roimg", "a-amd64-1.squashfs"], .file "http://r/pkg/a-amd64-1.squashfs"),
        (["/", "roimg", "a-amd64-1.meta.textproto"], .file "http://r/pkg/a-amd64-1.meta.textproto"),
        (["/", "roimg", "b-amd64-1.squashfs"], .file "http://r/pkg/b-amd64-1.squashfs"),
        (["/", "roimg", "b-amd64-1.meta.textproto"], .file "http://r/pkg/b-amd64-1.meta.textproto"),
        (["/"], .dir), (["/", "roimg"], .dir), (["/", "roimg", "tmp"], .dir)]⟩ := by
  obtain ⟨fs, faults, tb, reads, calls, trace⟩ := v
  simp only at hf hfs
  subst hf
  subst hfs
  simp [install1, plainExt, demoExt, demoRepo, osStat, FS.lookup, stagingDir,
    M.bind, M.pure, fail, attempt, sys, nextFault, tick, osMkdir, FS.parentIsDir, FS.set,
    forEach, fetchInto, osCreate, repoReader, stringsHasPrefix, ioCopy, addTotalBytes,
    osClose, commitFile, osRename, FS.erase, osRemove, FS.hasChild, copyEtc, mmapOpen,
    findEtc, List.isPrefixOf]

theorem errgroup_cons_ok (t : M Unit) (ts : List (M Unit)) (w : World)
    (h1 : (t w).1 = .ok ()) (h2 : (errgroup ts (t w).2).1 = .ok ()) :
    (errgroup (t :: ts) w).1 = .ok () := by
  have h : errgroup (t :: ts) w =
      (match (t w).1 with
        | .error e => .error e
        | .ok _ => (errgroup ts (t w).2).1, (errgroup ts (t w).2).2) := by
    rw [errgroup]
    beta_reduce
    rcases t w with ⟨r, w1⟩
    cases r <;> rfl
  rw [h, h1]
  exact h2

theorem installTask_of_ok (x : Ext) (root : String) (repo : Repo) (first : Bool) (pkg : String)
    (w : World) (h : (install1 x root repo pkg first w).1 = .ok ()) :
    (installTask x root repo first pkg w).1 = .ok () ∧
    (installTask x root repo first pkg w).2 = (install1 x root repo pkg first w).2 := by
  rw [installTask_eq, h]
  exact ⟨rfl, rfl⟩

theorem plain_run_ok :
    (installTransitively1 plainExt ⟨id, List.reverse⟩ "/" [⟨"http://q"⟩, demoRepo] "p"
      demoWorld).1 = .ok () := by
  have hrun : installTransitively1 plainExt ⟨id, List.reverse⟩ "/" [⟨"http://q"⟩, demoRepo] "p"
      demoWorld =
      errgroup (["b-amd64-1", "a-amd64-1", "p-amd64-1.0"].map
        (installTask plainExt "/" demoRepo true))
        (tick { demoWorld with
          reads := [(⟨"http://q"⟩, "pkg/p-amd64.meta.textproto"),
            (demoRepo, "pkg/p-amd64.meta.textproto")] }) := by
    unfold installTransitively1
    simp only [M.bind, plain_collect]
    rfl
  rw [hrun]
  have hb := plain_install_b (tick { demoWorld with
          reads := [(⟨"http://q"⟩, "pkg/p-amd64.meta.textproto"),
            (demoRepo, "pkg/p-amd64.meta.textproto")] }) rfl rfl
  have ha := plain_install_a _ hb.2.1 hb.2.2
  have hp := plain_install_p _ ha.2.1 ha.2.2
  obtain ⟨tb1, tb2⟩ := installTask_of_ok plainExt "/" demoRepo true _ _ hb.1
  refine errgroup_cons_ok _ _ _ tb1 ?_
  rw [tb2]
  obtain ⟨ta1, ta2⟩ := installTask_of_ok plainExt "/" demoRepo true _ _ ha.1
  refine errgroup_cons_ok _ _ _ ta1 ?_
  rw [ta2]
  obtain ⟨tp1, tp2⟩ := installTask_of_ok plainExt "/" demoRepo true _ _ hp.1
  refine errgroup_cons_ok _ _ _ tp1 ?_
  rfl

theorem plain_fresh :
    ∀ n ∈ fullName plainExt (qualify plainExt "p") ⟨"1.0", ["a-amd64-1", "b-amd64-1"]⟩ ::
        (⟨"1.0", ["a-amd64-1", "b-amd64-1"]⟩ : Meta).RuntimeDep,
      demoWorld.fs.lookup ["/", "roimg", n ++ ".squashfs"] = none := by
  intro n hn
  simp only [List.mem_cons, List.mem_singleton, List.not_mem_nil, or_false] at hn
  rcases hn with rfl | rfl | rfl <;> decide

theorem plain_stage :
    ∀ c t, demoWorld.fs.lookup ("/" :: "roimg" :: "tmp" :: c :: t) = none := by
  intro c t
  simp [demoWorld, FS.lookup]

theorem installTransitively1_installs_all_witness :
    (∃ cI cM,
        (repoReader plainExt demoRepo ("pkg/" ++ ("p-amd64-1.0" ++ ".squashfs")) demoWorld).1 = .ok cI ∧
        (repoReader plainExt demoRepo ("pkg/" ++ ("p-amd64-1.0" ++ ".meta.textproto")) demoWorld).1
          = .ok cM ∧
        (installTransitively1 plainExt ⟨id, List.reverse⟩ "/" [⟨"http://q"⟩, demoRepo] "p"
          demoWorld).2.fs.lookup ["/", "roimg", "p-amd64-1.0" ++ ".squashfs"] = some (.file cI) ∧
        (installTransitively1 plainExt ⟨id, List.reverse⟩ "/" [⟨"http://q"⟩, demoRepo] "p"
          demoWorld).2.fs.lookup ["/", "roimg", "p-amd64-1.0" ++ ".meta.textproto"] = some (.file cM) ∧
        (installTransitively1 plainExt ⟨id, List.reverse⟩ "/" [⟨"http://q"⟩, demoRepo] "p"
          demoWorld).2.fs.lookup (stagingDir plainExt "/" "p-amd64-1.0") = none ∧
        (installTransitively1 plainExt ⟨id, List.reverse⟩ "/" [⟨"http://q"⟩, demoRepo] "p"
          demoWorld).2.fs.lookup (stagingDir plainExt "/" "p-amd64-1.0" ++ ["p-amd64-1.0" ++ ".squashfs"]) = none ∧
        (installTransitively1 plainExt ⟨id, List.reverse⟩ "/" [⟨"http://q"⟩, demoRepo] "p"
          demoWorld).2.fs.lookup (stagingDir plainExt "/" "p-amd64-1.0" ++ ["p-amd64-1.0" ++ ".meta.textproto"])
          = none) ∧
    (∃ cI cM,
        (repoReader plainExt demoRepo ("pkg/" ++ ("a-amd64-1" ++ ".squashfs")) demoWorld).1 = .ok cI ∧
        (repoReader plainExt demoRepo ("pkg/" ++ ("a-amd64-1" ++ ".meta.textproto")) demoWorld).1
          = .ok cM ∧
        (installTransitively1 plainExt ⟨id, List.reverse⟩ "/" [⟨"http://q"⟩, demoRepo] "p"
          demoWorld).2.fs.lookup ["/", "roimg", "a-amd64-1" ++ ".squashfs"] = some (.file cI) ∧
        (installTransitively1 plainExt ⟨id, List.reverse⟩ "/" [⟨"http://q"⟩, demoRepo] "p"
          demoWorld).2.fs.lookup ["/", "roimg", "a-amd64-1" ++ ".meta.textproto"] = some (.file cM) ∧
        (installTransitively1 plainExt ⟨id, List.reverse⟩ "/" [⟨"http://q"⟩, demoRepo] "p"
          demoWorld).2.fs.lookup (stagingDir plainExt "/" "a-amd64-1") = none ∧
        (installTransitively1 plainExt ⟨id, List.reverse⟩ "/" [⟨"http://q"⟩, demoRepo] "p"
          demoWorld).2.fs.lookup (stagingDir plainExt "/" "a-amd64-1" ++ ["a-amd64-1" ++ ".squashfs"]) = none ∧
        (installTransitively1 plainExt ⟨id, List.reverse⟩ "/" [⟨"http://q"⟩, demoRepo] "p"
          demoWorld).2.fs.lookup (stagingDir plainExt "/" "a-amd64-1" ++ ["a-amd64-1" ++ ".meta.textproto"])
          = none) ∧
    (∃ cI cM,
        (repoReader plainExt demoRepo ("pkg/" ++ ("b-amd64-1" ++ ".squashfs")) demoWorld).1 = .ok cI ∧
        (repoReader plainExt demoRepo ("pkg/" ++ ("b-amd64-1" ++ ".meta.textproto")) demoWorld).1
          = .ok cM ∧
        (installTransitively1 plainExt ⟨id, List.reverse⟩ "/" [⟨"http://q"⟩, demoRepo] "p"
          demoWorld).2.fs.lookup ["/", "roimg", "b-amd64-1" ++ ".squashfs"] = some (.file cI) ∧
        (installTransitively1 plainExt ⟨id, List.reverse⟩ "/" [⟨"http://q"⟩, demoRepo] "p"
          demoWorld).2.fs.lookup ["/", "roimg", "b-amd64-1" ++ ".meta.textproto"] = some (.file cM) ∧
        (installTransitively1 plainExt ⟨id, List.reverse⟩ "/" [⟨"http://q"⟩, demoRepo] "p"
          demoWorld).2.fs.lookup (stagingDir plainExt "/" "b-amd64-1") = none ∧
        (installTransitively1 plainExt ⟨id, List.reverse⟩ "/" [⟨"http://q"⟩, demoRepo] "p"
          demoWorld).2.fs.lookup (stagingDir plainExt "/" "b-amd64-1" ++ ["b-amd64-1" ++ ".squashfs"]) = none ∧
        (installTransitively1 plainExt ⟨id, List.reverse⟩ "/" [⟨"http://q"⟩, demoRepo] "p"
          demoWorld).2.fs.lookup (stagingDir plainExt "/" "b-amd64-1" ++ ["b-amd64-1" ++ ".meta.textproto"])
          = none) :=
  ⟨installTransitively1_installs_all plainExt ⟨id, List.reverse⟩ "/"
      [⟨"http://q"⟩, demoRepo] "p" demoWorld _ _ ⟨"1.0", ["a-amd64-1", "b-amd64-1"]⟩ demoRepo
      (fun l => List.reverse_perm l) plain_collect (by rfl) (fun f hf => by cases hf)
      plain_fresh plain_stage plain_run_ok "p-amd64-1.0" (by decide),
    installTransitively1_installs_all plainExt ⟨id, List.reverse⟩ "/"
      [⟨"http://q"⟩, demoRepo] "p" demoWorld _ _ ⟨"1.0", ["a-amd64-1", "b-amd64-1"]⟩ demoRepo
      (fun l => List.reverse_perm l) plain_collect (by rfl) (fun f hf => by cases hf)
      plain_fresh plain_stage plain_run_ok "a-amd64-1" (by decide),
    installTransitively1_installs_all plainExt ⟨id, List.reverse⟩ "/"
      [⟨"http://q"⟩, demoRepo] "p" demoWorld _ _ ⟨"1.0", ["a-amd64-1", "b-amd64-1"]⟩ demoRepo
      (fun l => List.reverse_perm l) plain_collect (by rfl) (fun f hf => by cases hf)
      plain_fresh plain_stage plain_run_ok "b-amd64-1" (by decide)⟩
/-! ## Configuration extraction on upgrade -/

set_option synthInstance.maxHeartbeats 400000 in
set_option maxHeartbeats 1000000 in
theorem upgrade_run :
    (installTransitively1 upgradeExt ⟨id, id⟩ "/" [demoRepo] "p-amd64" upgradeWorld).1 = .ok () ∧
    (installTransitively1 upgradeExt ⟨id, id⟩ "/" [demoRepo] "p-amd64"
      upgradeWorld).2.fs.lookup ["/", "etc", "motd"] = some (.file "hi") ∧
    (installTransitively1 upgradeExt ⟨id, id⟩ "/" [demoRepo] "p-amd64"
      upgradeWorld).2.fs.lookup ["/", "roimg", "p-amd64-1.0.squashfs"] =
        some (.file "http://r/pkg/p-amd64-1.0.squashfs") ∧
    (installTransitively1 upgradeExt ⟨id, id⟩ "/" [demoRepo] "p-amd64"
      upgradeWorld).2.calls = [⟨"/", demoRepo, "p-amd64-1.0", true⟩] := by
  refine ⟨?_, ?_, ?_, ?_⟩ <;>
  simp [installTransitively1, qualify, fullName, collectMetas, selectMeta, readAll, errgroup,
    installTask, install1, upgradeWorld, demoWorld, upgradeExt, tieExt, demoRepo, osStat,
    FS.lookup, stagingDir,
    M.bind, M.pure, fail, attempt, sys, nextFault, tick, osMkdir, FS.parentIsDir, FS.set,
    forEach, fetchInto, osCreate, repoReader, stringsHasPrefix, ioCopy, addTotalBytes,
    osClose, commitFile, osRename, FS.erase, osRemove, FS.hasChild, copyEtc, mmapOpen,
    findEtc, unpackDir, unpackEntries, osMkdirAll, osMkdirAllRev, osSymlink, List.isPrefixOf]

/-- C11 (the code departs from the claim). Version 0.9 of `p-amd64` is installed
and `/etc/motd` holds `edited`.  Installing version 1.0 through
`installTransitively1` succeeds, invokes `install1` with `first = true`, and the
extraction of the `etc` subtree of the new image runs: `/etc/motd` afterwards
holds the content `hi` of the image. -/
theorem installTransitively1_extracts_on_upgrade :
    upgradeWorld.fs.lookup ["/", "roimg", "p-amd64-0.9.squashfs"] = some (.file "old image") ∧
    upgradeWorld.fs.lookup ["/", "etc", "motd"] = some (.file "edited") ∧
    (installTransitively1 upgradeExt ⟨id, id⟩ "/" [demoRepo] "p-amd64" upgradeWorld).1 = .ok () ∧
    (installTransitively1 upgradeExt ⟨id, id⟩ "/" [demoRepo] "p-amd64"
      upgradeWorld).2.calls = [⟨"/", demoRepo, "p-amd64-1.0", true⟩] ∧
    (installTransitively1 upgradeExt ⟨id, id⟩ "/" [demoRepo] "p-amd64"
      upgradeWorld).2.fs.lookup ["/", "etc", "motd"] = some (.file "hi") ∧
    (installTransitively1 upgradeExt ⟨id, id⟩ "/" [demoRepo] "p-amd64"
      upgradeWorld).2.fs.lookup ["/", "roimg", "p-amd64-1.0.squashfs"] =
        some (.file "http://r/pkg/p-amd64-1.0.squashfs") := by
  exact ⟨by decide, by decide, upgrade_run.1, upgrade_run.2.2.2, upgrade_run.2.1,
    upgrade_run.2.2.1⟩

end Distri
